import Mathlib

/-!
# Verification of the NeuroDone intelligent hybrid parsing core

This file is a shallow embedding, in Lean 4, of the self-learning parsing
engine of the repository (`neurodone-ai.js`) together with the thin input
validation gate of the serverless proxy (`parse-task.js`), and proofs of the
behavioural properties claimed for them.

Modelling conventions, applied uniformly:

* JavaScript strings are modelled as `List Char`; the regex-based string
  transformations of the source are embedded as explicit character-list
  scanners that mirror the left-to-right, leftmost-match, ordered-alternation
  semantics of JavaScript `String.replace` / `String.match` with the `g` flag,
  including word-boundary (`\b`) handling.
* JavaScript numbers used for confidences/similarities are modelled as `ℚ`;
  a float comparison `x / y >= 0.7` is embedded as the exact rational
  comparison (cross-multiplied on naturals where both sides are integral),
  which agrees with IEEE double evaluation for all list lengths that can
  arise from real inputs.
* `Date` values are modelled by `JsDate` (days since the Unix epoch plus
  milliseconds within the day, in a fixed UTC-like timezone), with the civil
  calendar conversions implementing exactly the proleptic Gregorian
  normalisation that `Date.prototype.setDate` and `new Date(y, m, d)` perform.
  The final `toISOString` rendering of the source is an injective formatting
  step and is elided: the embedded `extractDeadline` returns the `JsDate`.
* Effects are made explicit: `Math.random`-based id generation is modelled by
  a threaded `Nat` counter, `new Date()` by an explicit `now : JsDate`
  parameter, `localStorage` persistence by returning the updated state, and
  the remote model call inside `parseTask` by a `RemoteOutcome` parameter.
-/

/-! ## Character classes (JavaScript regex `\w`, `\s`, `\d`, `[A-Z]` with `i`) -/

/-- JavaScript `\w`, i.e. `[A-Za-z0-9_]`. -/
def isWordChar (c : Char) : Bool :=
  (97 ≤ c.toNat && c.toNat ≤ 122) || (65 ≤ c.toNat && c.toNat ≤ 90) ||
  (48 ≤ c.toNat && c.toNat ≤ 57) || c.toNat == 95

/-- JavaScript `\s` (restricted to the ASCII whitespace characters, which are
the only whitespace characters the surrounding pipeline can produce). -/
def isSpaceChar (c : Char) : Bool :=
  c.toNat == 32 || c.toNat == 9 || c.toNat == 10 || c.toNat == 13 ||
  c.toNat == 11 || c.toNat == 12

/-- ASCII letter, i.e. `[A-Z]` under the `i` flag. -/
def isAsciiLetter (c : Char) : Bool :=
  (97 ≤ c.toNat && c.toNat ≤ 122) || (65 ≤ c.toNat && c.toNat ≤ 90)

/-- The character class `[a-zA-Z0-9\s]` used by the project-capture regexes. -/
def isCaptureChar (c : Char) : Bool :=
  isAsciiLetter c || c.isDigit || isSpaceChar c

/-! ## Generic word-bounded literal scanning

These model JavaScript regexes of the shape `/\b(w₁|w₂|…)\b/g`: scanning is
left to right; at a position the engine requires a word boundary, tries the
alternatives in order, and requires a word boundary after the matched
alternative; after a match it resumes immediately after the matched text
(whose last character is a word character for every word list we use). -/

/-- Match the literal `p` at the head of `s`, returning the rest on success. -/
def litMatch : List Char → List Char → Option (List Char)
  | [], s => some s
  | _ :: _, [] => none
  | p :: ps, c :: cs => if c = p then litMatch ps cs else none

/-- `\b` holds between the end of a word-character run and `s`. -/
def noWordAhead : List Char → Bool
  | [] => true
  | c :: _ => !isWordChar c

theorem litMatch_length {p s r : List Char} (h : litMatch p s = some r) :
    r.length + p.length = s.length := by
  induction p generalizing s with
  | nil => simp [litMatch] at h; simp [h]
  | cons a ps ih =>
    match s with
    | [] => simp [litMatch] at h
    | c :: cs =>
      simp only [litMatch] at h
      split at h
      · have := ih h; simp [List.length_cons]; omega
      · exact absurd h (by simp)

/-- Try the alternatives `ws` in order at the current position: an alternative
succeeds when it matches literally and is followed by a word boundary
(`\b` backtracks into the next alternative otherwise).  Empty alternatives
are skipped; none of the word lists in the source contains one. -/
def tryWords : List (List Char) → List Char → Option (List Char)
  | [], _ => none
  | w :: rest, s =>
    match w with
    | [] => tryWords rest s
    | p :: ps =>
      match s with
      | [] => tryWords rest []
      | c :: cs =>
        if c = p then
          match litMatch ps cs with
          | some r => if noWordAhead r then some r else tryWords rest (c :: cs)
          | none => tryWords rest (c :: cs)
        else tryWords rest (c :: cs)

theorem tryWords_length {ws : List (List Char)} {s r : List Char}
    (h : tryWords ws s = some r) : r.length < s.length := by
  induction ws generalizing s with
  | nil => simp [tryWords] at h
  | cons w rest ih =>
    match w with
    | [] => exact ih (by simpa [tryWords] using h)
    | p :: ps =>
      match s with
      | [] => exact ih (by simpa [tryWords] using h)
      | c :: cs =>
        simp only [tryWords] at h
        split at h
        · rename_i hcp
          cases hlm : litMatch ps cs with
          | some r' =>
            rw [hlm] at h
            simp only at h
            split at h
            · cases h; have := litMatch_length hlm; simp [List.length_cons]; omega
            · exact ih h
          | none => rw [hlm] at h; exact ih h
        · exact ih h

/-- The scanner for `/\b(w₁|…)\b/g → rep`.  `prevW` records whether the
previous character (if any) was a word character, which determines `\b`.
After a match the scan resumes with `prevW = true` because every alternative
in every list used ends in a word character. -/
def replWords (ws : List (List Char)) (rep : List Char) :
    Bool → List Char → List Char
  | _, [] => []
  | prevW, c :: cs =>
    if prevW then c :: replWords ws rep (isWordChar c) cs
    else
      match h : tryWords ws (c :: cs) with
      | some r => rep ++ replWords ws rep true r
      | none => c :: replWords ws rep (isWordChar c) cs
termination_by _ s => s.length
decreasing_by
  all_goals simp_wf
  all_goals first
    | exact tryWords_length h
    | omega

/-- Counting variant of `replWords`: the number of matches of
`/\b(w₁|…)\b/g` in `s`. -/
def countWords (ws : List (List Char)) : Bool → List Char → Nat
  | _, [] => 0
  | prevW, c :: cs =>
    if prevW then countWords ws (isWordChar c) cs
    else
      match h : tryWords ws (c :: cs) with
      | some r => 1 + countWords ws true r
      | none => countWords ws (isWordChar c) cs
termination_by _ s => s.length
decreasing_by
  all_goals simp_wf
  all_goals first
    | exact tryWords_length h
    | omega

/-- Does `/\b(w₁|…)\b/` match anywhere in the text? -/
def hasWords (ws : List (List Char)) : Bool → List Char → Bool
  | _, [] => false
  | prevW, c :: cs =>
    if prevW then hasWords ws (isWordChar c) cs
    else
      match tryWords ws (c :: cs) with
      | some _ => true
      | none => hasWords ws (isWordChar c) cs

theorem length_dropWhile_le (p : Char → Bool) (l : List Char) :
    (l.dropWhile p).length ≤ l.length := by
  induction l with
  | nil => simp [List.dropWhile]
  | cons c cs ih =>
    simp only [List.dropWhile]
    split
    · exact Nat.le_succ_of_le ih
    · exact Nat.le_refl _

/-- The scanner for `/\b\d+\b/g → rep` (used with `rep = "[NUM]"`).  `\d+` is
greedy; when the maximal digit run is followed by a word character the
backtracked shorter runs also fail `\b`, so the position simply advances. -/
def replNums (rep : List Char) : Bool → List Char → List Char
  | _, [] => []
  | prevW, c :: cs =>
    if !prevW && c.isDigit then
      let rest := cs.dropWhile Char.isDigit
      if noWordAhead rest then rep ++ replNums rep true rest
      else c :: replNums rep (isWordChar c) cs
    else c :: replNums rep (isWordChar c) cs
termination_by _ s => s.length
decreasing_by
  all_goals simp_wf
  all_goals first
    | exact Nat.lt_succ_of_le (length_dropWhile_le _ _)
    | omega

/-- `/\s+/g → ' '`: every whitespace run collapses to a single space. -/
def collapseWs : List Char → List Char
  | [] => []
  | c :: cs =>
    if isSpaceChar c then ' ' :: collapseWs (cs.dropWhile isSpaceChar)
    else c :: collapseWs cs
termination_by s => s.length
decreasing_by
  all_goals simp_wf
  all_goals first
    | exact Nat.lt_succ_of_le (length_dropWhile_le _ _)
    | omega

/-- JavaScript `String.prototype.trim` (ASCII whitespace). -/
def trimWs (s : List Char) : List Char :=
  ((s.dropWhile isSpaceChar).reverse.dropWhile isSpaceChar).reverse

/-- `/[^\w\s]/g → ' '`. -/
def punctToSpace (s : List Char) : List Char :=
  s.map fun c => if isWordChar c || isSpaceChar c then c else ' '

/-! ## The Normalizer (`normalizeForMatching`, neurodone-ai.js lines 468-478) -/

def stopWords : List (List Char) :=
  ["the", "a", "an", "to", "for", "by", "on", "at", "in"].map String.toList

def dayWords : List (List Char) :=
  ["monday", "tuesday", "wednesday", "thursday", "friday", "saturday",
   "sunday"].map String.toList

def timeWords : List (List Char) :=
  ["today", "tomorrow", "next week"].map String.toList

def dayTok : List Char := "[DAY]".toList
def timeTok : List Char := "[TIME]".toList
def numTok : List Char := "[NUM]".toList

/-- `normalizeForMatching` from the source: lower-case, strip punctuation to
spaces, delete stopwords, replace weekday names by `[DAY]`, relative-time
words by `[TIME]`, digit runs by `[NUM]`, collapse whitespace, trim. -/
def normalizeForMatching (input : List Char) : List Char :=
  trimWs (collapseWs (replNums numTok false
    (replWords timeWords timeTok false
      (replWords dayWords dayTok false
        (replWords stopWords [] false
          (punctToSpace (input.map Char.toLower)))))))

/-! ## JavaScript `Date` model

`JsDate` represents an instant as days since 1970-01-01 plus milliseconds
within the day, in a fixed UTC-like local timezone.  `daysFromCivil` /
`civilFromDays` are the standard proleptic-Gregorian conversions (with
truncating integer division on non-negative operands, as in the source
arithmetic of the JavaScript engine's date normalisation). -/

structure JsDate where
  epochDays : Int
  msOfDay : Nat
deriving DecidableEq, Repr

/-- Days since the epoch of the civil date `(y, m, d)` with `m ∈ 1..12`
(`d` is always `1` at call sites; day offsets are added separately, which is
exactly how `setDate` normalises out-of-range day numbers). -/
def daysFromCivil (y m d : Int) : Int :=
  let yAdj := if m ≤ 2 then y - 1 else y
  let era := (if 0 ≤ yAdj then yAdj else yAdj - 399) / 400
  let yoe := yAdj - era * 400
  let mp := (m + 9) % 12
  let doy := (153 * mp + 2) / 5 + d - 1
  let doe := yoe * 365 + yoe / 4 - yoe / 100 + doy
  era * 146097 + doe - 719468

/-- Civil date `(year, month 1..12, day 1..31)` of a day number. -/
def civilFromDays (z0 : Int) : Int × Int × Int :=
  let z := z0 + 719468
  let era := (if 0 ≤ z then z else z - 146096) / 146097
  let doe := z - era * 146097
  let yoe := (doe - doe / 1460 + doe / 36524 - doe / 146096) / 365
  let y := yoe + era * 400
  let doy := doe - (365 * yoe + yoe / 4 - yoe / 100)
  let mp := (5 * doy + 2) / 153
  let d := doy - (153 * mp + 2) / 5 + 1
  let m := if mp < 10 then mp + 3 else mp - 9
  (if m ≤ 2 then y + 1 else y, m, d)

/-- `Date.prototype.getFullYear`. -/
def jsGetFullYear (t : JsDate) : Int := (civilFromDays t.epochDays).1

/-- `Date.prototype.getDate` (day of month). -/
def jsGetDate (t : JsDate) : Int := (civilFromDays t.epochDays).2.2

/-- `Date.prototype.getDay` (0 = Sunday … 6 = Saturday);
1970-01-01 was a Thursday. -/
def jsGetDay (t : JsDate) : Int := (t.epochDays + 4) % 7

/-- `Date.prototype.setDate n`: move to day-of-month `n` of the date's
current month, normalising out-of-range `n` by day arithmetic. -/
def jsSetDate (t : JsDate) (n : Int) : JsDate :=
  let c := civilFromDays t.epochDays
  { t with epochDays := daysFromCivil c.1 c.2.1 1 + (n - 1) }

/-- `new Date(y, m, d)` with a 0-based month index `m`, including the
1900-offset quirk for two-digit years and overflow normalisation of both
month and day. -/
def mkJsDate (y m d : Int) : JsDate :=
  let y1 := if 0 ≤ y ∧ y ≤ 99 then y + 1900 else y
  let yN := y1 + Int.fdiv m 12
  let mN := Int.fmod m 12
  { epochDays := daysFromCivil yN (mN + 1) 1 + (d - 1), msOfDay := 0 }

/-- `new Date(Date.now() + 86400000)`: exactly one day later. -/
def addOneDay (t : JsDate) : JsDate := { t with epochDays := t.epochDays + 1 }

/-! ## Pattern Store data model -/

/-- A chunk record as returned by the remote parser (`{name, …}`). -/
structure ChunkRec where
  name : List Char
deriving DecidableEq, Repr

/-- The fields of a remote parse result that the Learning Loop reads
(`claudeResult.name`, `.project`, `.chunks`). -/
structure RemoteParse where
  name : List Char
  project : List Char
  chunks : Option (List ChunkRec)
deriving DecidableEq, Repr

/-- A learned pattern (neurodone-ai.js lines 430-441). -/
structure Pattern where
  id : Nat
  normalized : List Char
  originalInput : List Char
  taskNameTemplate : List Char × List Char
  projectPattern : Option (List Char × List Char)
  defaultProject : List Char
  chunks : List (List Char)
  createdAt : JsDate
  useCount : Nat
  successRate : ℚ
deriving DecidableEq, Repr

/-! ## The Pattern Matcher (`patternsMatch`, `findMatchingPattern`) -/

/-- JavaScript `String.prototype.split(' ')` (single-space separator; empty
fields are kept, and the empty string splits to `[""]`). -/
def splitSp : List Char → List (List Char)
  | [] => [[]]
  | c :: cs =>
    if c = ' ' then [] :: splitSp cs
    else
      match splitSp cs with
      | [] => [[c]]
      | t :: ts => (c :: t) :: ts

/-- `patternsMatch` (lines 480-492): tokenize both strings on single spaces,
count the tokens of `a` (with multiplicity) that occur among the tokens of
`b`, and accept when `matches / max(|wordsA|, |wordsB|) >= 0.7`.  The float
comparison is embedded as the exact cross-multiplied rational comparison. -/
def patternsMatch (a b : List Char) : Bool :=
  let wordsA := splitSp a
  let wordsB := splitSp b
  let matchCount := wordsA.countP (fun w => wordsB.contains w)
  decide (7 * max wordsA.length wordsB.length ≤ 10 * matchCount)

/-- `pattern.successRate || 0.8` (a zero stored rate is falsy). -/
def patternConfidence (p : Pattern) : ℚ :=
  if p.successRate = 0 then 8/10 else p.successRate

/-- The `for … of` loop body of `findMatchingPattern`. -/
def findLoop (normalized : List Char) : List Pattern → Option (Pattern × ℚ)
  | [] => none
  | p :: ps =>
    if patternsMatch normalized p.normalized then some (p, patternConfidence p)
    else findLoop normalized ps

/-- `findMatchingPattern` (lines 397-409): normalise the input once, then
return the first pattern in store order that fuzzily matches, paired with
its reported confidence. -/
def findMatchingPattern (input : List Char) (patterns : List Pattern) :
    Option (Pattern × ℚ) :=
  findLoop (normalizeForMatching input) patterns

/-! ## The Learning Loop (`learnFromClaudeResponse` and helpers) -/

/-- First index at which `needle` occurs as a contiguous substring
(JavaScript `String.prototype.indexOf`; the empty needle occurs at 0). -/
def idxOfSub (needle : List Char) : List Char → Option Nat
  | [] => if needle.isPrefixOf ([] : List Char) then some 0 else none
  | c :: cs =>
    if needle.isPrefixOf (c :: cs) then some 0
    else (idxOfSub needle cs).map (· + 1)

/-- `createTaskNameTemplate` (lines 494-497). -/
def createTaskNameTemplate (input resultName : List Char) :
    List Char × List Char :=
  (input, resultName)

/-- `createProjectPattern` (lines 499-511): the ≤10-character substring of the
lower-cased input immediately preceding the project name's first occurrence,
trimmed, stored as a keyword anchor. -/
def createProjectPattern (input project : List Char) :
    Option (List Char × List Char) :=
  let lowerInput := input.map Char.toLower
  let lowerProject := project.map Char.toLower
  match idxOfSub lowerProject lowerInput with
  | some index =>
    let start := index - 10
    let before := trimWs ((lowerInput.drop start).take (index - start))
    some (before, project)
  | none => none

/-- Replace the element at index `i` (no-op when out of range). -/
def updateAt (i : Nat) (f : α → α) : List α → List α
  | [] => []
  | x :: xs =>
    match i with
    | 0 => f x :: xs
    | j + 1 => x :: updateAt j f xs

/-- JavaScript `Array.prototype.findIndex`. -/
def findIndexP (pred : α → Bool) : List α → Option Nat
  | [] => none
  | x :: xs => if pred x then some 0 else (findIndexP pred xs).map (· + 1)

/-- Stable insertion into a list sorted by descending `useCount`: the new
element goes after every element with a `useCount` at least as large. -/
def insDesc (a : Pattern) : List Pattern → List Pattern
  | [] => [a]
  | b :: l => if b.useCount < a.useCount then a :: b :: l else b :: insDesc a l

/-- `sort((a, b) => b.useCount - a.useCount)`: a stable sort by descending
`useCount` (JavaScript `Array.prototype.sort` is stable, and a stable sort is
uniquely determined by its key order). -/
def sortByUseCountDesc (l : List Pattern) : List Pattern :=
  l.foldl (fun acc x => insDesc x acc) []

/-- The duplicate-detection / merge step (lines 443-455): if an existing
pattern fuzzily matches the new normalized key, increment its `useCount` and
overwrite its chunk list; otherwise append the new pattern. -/
def insertPattern (pat : Pattern) (store : List Pattern) : List Pattern :=
  match findIndexP (fun p => patternsMatch p.normalized pat.normalized) store with
  | some i =>
    updateAt i (fun p => { p with useCount := p.useCount + 1, chunks := pat.chunks }) store
  | none => store ++ [pat]

/-- The 100-pattern memory cap (lines 457-462): when the store exceeds 100
entries, sort by descending `useCount` and keep the first 100. -/
def capPatterns (l : List Pattern) : List Pattern :=
  if 100 < l.length then (sortByUseCountDesc l).take 100 else l

/-- `claudeResult.chunks?.map(c => c.name) || []` (an empty array is truthy,
so an empty chunk list is kept as such). -/
def remoteChunkNames (claudeResult : RemoteParse) : List (List Char) :=
  (claudeResult.chunks.map (fun l => l.map ChunkRec.name)).getD []

/-- The candidate pattern object built at the top of
`learnFromClaudeResponse` (lines 430-441). -/
def newPattern (now : JsDate) (gen : Nat) (input : List Char)
    (claudeResult : RemoteParse) : Pattern :=
  { id := gen
    normalized := normalizeForMatching input
    originalInput := input
    taskNameTemplate := createTaskNameTemplate input claudeResult.name
    projectPattern := createProjectPattern input claudeResult.project
    defaultProject := claudeResult.project
    chunks := remoteChunkNames claudeResult
    createdAt := now
    useCount := 1
    successRate := 1 }

/-- `learnFromClaudeResponse` (lines 426-466).  `now` models `new Date()`,
`gen` the id counter for `generateId()`; the updated store and counter are
returned (the `localStorage` persistence step is the identity on the state). -/
def learnFromClaudeResponse (now : JsDate) (gen : Nat) (input : List Char)
    (claudeResult : RemoteParse) (store : List Pattern) : List Pattern × Nat :=
  (capPatterns (insertPattern (newPattern now gen input claudeResult) store),
   gen + 1)

/-! ## The Deadline Extractor (`extractDeadline`, lines 264-317) -/

/-- Digit string to number (`parseInt` on a capture of `\d+`). -/
def digitsToNat (ds : List Char) : Nat :=
  ds.foldl (fun n c => n * 10 + (c.toNat - 48)) 0

/-- Matcher for `/\bin (\d+) days?\b/` (resp. `weeks?`) at one position:
`"in "`, a digit run, a space, the unit, an optional `s`, then `\b`. -/
def matchInNum (unit : List Char) (s : List Char) : Option Nat :=
  match litMatch ("in ".toList) s with
  | none => none
  | some r1 =>
    let digits := r1.takeWhile Char.isDigit
    if digits = [] then none
    else
      match r1.dropWhile Char.isDigit with
      | ' ' :: r3 =>
        match litMatch unit r3 with
        | none => none
        | some r4 =>
          match r4 with
          | 's' :: r5 => if noWordAhead r5 then some (digitsToNat digits) else none
          | _ => if noWordAhead r4 then some (digitsToNat digits) else none
      | _ => none

/-- Leftmost match of `/\bin (\d+) unit s?\b/`, returning the captured
number. -/
def findInNum (unit : List Char) : Bool → List Char → Option Nat
  | _, [] => none
  | prevW, c :: cs =>
    if prevW then findInNum unit (isWordChar c) cs
    else
      match matchInNum unit (c :: cs) with
      | some n => some n
      | none => findInNum unit (isWordChar c) cs

/-- One entry of the ordered `deadlinePatterns` rule list. -/
inductive DlPat
  | word (w : List Char) (days : Int)
  | inUnit (unit : List Char) (mult : Nat)
  | wday (w : List Char) (d : Int)

/-- Result of the rule list: a day offset or a target weekday. -/
inductive DlRule
  | days (k : Int)
  | weekday (w : Int)

/-- The `deadlinePatterns` array (lines 269-288), in source order. -/
def deadlinePatterns : List DlPat :=
  [ .word "today".toList 0
  , .word "tomorrow".toList 1
  , .word "day after tomorrow".toList 2
  , .word "next week".toList 7
  , .inUnit "day".toList 1
  , .inUnit "week".toList 7
  , .wday "on monday".toList 1
  , .wday "on tuesday".toList 2
  , .wday "on wednesday".toList 3
  , .wday "on thursday".toList 4
  , .wday "on friday".toList 5
  , .wday "on saturday".toList 6
  , .wday "on sunday".toList 0
  , .wday "monday".toList 1
  , .wday "tuesday".toList 2
  , .wday "wednesday".toList 3
  , .wday "thursday".toList 4
  , .wday "friday".toList 5 ]

/-- Test one rule of the list against the whole text. -/
def matchRule (text : List Char) : DlPat → Option DlRule
  | .word w k => if hasWords [w] false text then some (.days k) else none
  | .inUnit u m => (findInNum u false text).map (fun n => .days (m * n : Nat))
  | .wday w d => if hasWords [w] false text then some (.weekday d) else none

/-- `for (const dp of deadlinePatterns) … break`: the first rule in list
order whose pattern occurs anywhere in the text wins. -/
def firstRule (text : List Char) : List DlPat → Option DlRule
  | [] => none
  | p :: ps =>
    match matchRule text p with
    | some r => some r
    | none => firstRule text ps

/-- `[\/\-]`. -/
def isSep (c : Char) : Bool := c = '/' || c = '-'

/-- Exactly `k` digits at the head of `s`. -/
def takeDigits (k : Nat) (s : List Char) : Option (Nat × List Char) :=
  let ds := s.take k
  if ds.length = k && ds.all Char.isDigit then some (digitsToNat ds, s.drop k)
  else none

/-- The optional year group `(?:[\/\-](\d{2,4}))?` followed by `\b`:
greedily try a 4-, 3-, then 2-digit year with a trailing word boundary;
otherwise skip the group and require the boundary directly. -/
def tryTail (s : List Char) : Option (Option Nat × List Char) :=
  let withYear :=
    match s with
    | c :: r =>
      if isSep c then
        (match takeDigits 4 r with
         | some (y, rest) => if noWordAhead rest then some (y, rest) else none
         | none => none)
        |>.orElse (fun _ =>
          match takeDigits 3 r with
          | some (y, rest) => if noWordAhead rest then some (y, rest) else none
          | none => none)
        |>.orElse (fun _ =>
          match takeDigits 2 r with
          | some (y, rest) => if noWordAhead rest then some (y, rest) else none
          | none => none)
      else none
    | [] => none
  match withYear with
  | some (y, rest) => some (some y, rest)
  | none => if noWordAhead s then some (none, s) else none

/-- The day field `(\d{1,2})` (greedy, backtracking into the tail). -/
def tryDayTail (s : List Char) : Option (Nat × Option Nat) :=
  let day1 :=
    match takeDigits 1 s with
    | some (d1, r1) => (tryTail r1).map (fun p => (d1, p.1))
    | none => none
  match takeDigits 2 s with
  | some (d2, r) =>
    match tryTail r with
    | some (y, _) => some (d2, y)
    | none => day1
  | none => day1

/-- One-digit month alternative of the date pattern. -/
def tryMonth1 (s : List Char) : Option (Nat × Nat × Option Nat) :=
  match takeDigits 1 s with
  | some (m1, r) =>
    match r with
    | c :: r2 =>
      if isSep c then (tryDayTail r2).map (fun p => (m1, p.1, p.2)) else none
    | [] => none
  | none => none

/-- `/\b(\d{1,2})[\/\-](\d{1,2})(?:[\/\-](\d{2,4}))?\b/` at one position
(the leading `\b` is checked by the scanner). -/
def tryDateAt (s : List Char) : Option (Nat × Nat × Option Nat) :=
  match takeDigits 2 s with
  | some (m2, r) =>
    match
      (match r with
       | c :: r2 =>
         if isSep c then (tryDayTail r2).map (fun p => (m2, p.1, p.2)) else none
       | [] => none) with
    | some res => some res
    | none => tryMonth1 s
  | none => tryMonth1 s

/-- Leftmost match of the numeric date pattern in the text. -/
def dateScan : Bool → List Char → Option (Nat × Nat × Option Nat)
  | _, [] => none
  | prevW, c :: cs =>
    if prevW then dateScan (isWordChar c) cs
    else
      match tryDateAt (c :: cs) with
      | some r => some r
      | none => dateScan (isWordChar c) cs

/-- `extractDeadline` (lines 264-317).  Default is tomorrow (at the current
time of day); then the first matching rule of `deadlinePatterns` sets the
day (all via `setDate(now.getDate() + offset)` on the already-shifted
`deadline` object — faithfully including the month-boundary behaviour that
this entails); finally a numeric `M/D[/Y]` match overrides everything. -/
def extractDeadline (now : JsDate) (text : List Char) : JsDate :=
  let deadline0 := jsSetDate now (jsGetDate now + 1)
  let afterRules :=
    match firstRule text deadlinePatterns with
    | some (.days k) => jsSetDate deadline0 (jsGetDate now + k)
    | some (.weekday w) =>
      let currentDay := jsGetDay now
      let daysUntil0 := w - currentDay
      let daysUntil := if daysUntil0 ≤ 0 then daysUntil0 + 7 else daysUntil0
      jsSetDate deadline0 (jsGetDate now + daysUntil)
    | none => deadline0
  match dateScan false text with
  | some (mo, dy, yr) =>
    mkJsDate (yr.elim (jsGetFullYear now) (fun y => (y : Int))) ((mo : Int) - 1) (dy : Int)
  | none => afterRules

/-! ## Case-insensitive scanning (regexes with the `i` flag) -/

/-- Case-insensitive `litMatch`: the pattern is given lower-case and each text
character is lowered before comparison. -/
def litMatchCI : List Char → List Char → Option (List Char)
  | [], s => some s
  | _ :: _, [] => none
  | p :: ps, c :: cs => if c.toLower = p then litMatchCI ps cs else none

theorem litMatchCI_length {p s r : List Char} (h : litMatchCI p s = some r) :
    r.length + p.length = s.length := by
  induction p generalizing s with
  | nil => simp [litMatchCI] at h; simp [h]
  | cons a ps ih =>
    match s with
    | [] => simp [litMatchCI] at h
    | c :: cs =>
      simp only [litMatchCI] at h
      split at h
      · have := ih h; simp [List.length_cons]; omega
      · exact absurd h (by simp)

/-- Case-insensitive `tryWords`. -/
def tryWordsCI : List (List Char) → List Char → Option (List Char)
  | [], _ => none
  | w :: rest, s =>
    match w with
    | [] => tryWordsCI rest s
    | p :: ps =>
      match s with
      | [] => tryWordsCI rest []
      | c :: cs =>
        if c.toLower = p then
          match litMatchCI ps cs with
          | some r => if noWordAhead r then some r else tryWordsCI rest (c :: cs)
          | none => tryWordsCI rest (c :: cs)
        else tryWordsCI rest (c :: cs)

theorem tryWordsCI_length {ws : List (List Char)} {s r : List Char}
    (h : tryWordsCI ws s = some r) : r.length < s.length := by
  induction ws generalizing s with
  | nil => simp [tryWordsCI] at h
  | cons w rest ih =>
    match w with
    | [] => exact ih (by simpa [tryWordsCI] using h)
    | p :: ps =>
      match s with
      | [] => exact ih (by simpa [tryWordsCI] using h)
      | c :: cs =>
        simp only [tryWordsCI] at h
        split at h
        · cases hlm : litMatchCI ps cs with
          | some r' =>
            rw [hlm] at h
            simp only at h
            split at h
            · cases h
              have := litMatchCI_length hlm
              simp [List.length_cons]; omega
            · exact ih h
          | none => rw [hlm] at h; exact ih h
        · exact ih h

/-! ## The Rule-Based Parser (`ruleBasedParse` and helpers) -/

/-- `charAt(0).toUpperCase() + slice(1)`. -/
def capFirst : List Char → List Char
  | [] => []
  | c :: cs => c.toUpper :: cs

/-- The word list of the task-name stripping regex
`/\b(for|by|until|before|tomorrow|today|next week|on monday|…|on sunday)\b.*/gi`
(line 224), in source order. -/
def stripTemporalWords : List (List Char) :=
  ["for", "by", "until", "before", "tomorrow", "today", "next week",
   "on monday", "on tuesday", "on wednesday", "on thursday", "on friday",
   "on saturday", "on sunday"].map String.toList

/-- Scanner for the task-name stripping regex: at a word boundary, the first
matching alternative plus everything up to the end of the line (`.*` does not
cross `\n`) is deleted; scanning resumes at the newline. -/
def stripTemporalScan : Bool → List Char → List Char
  | _, [] => []
  | prevW, c :: cs =>
    if prevW then c :: stripTemporalScan (isWordChar c) cs
    else
      match h : tryWordsCI stripTemporalWords (c :: cs) with
      | some r =>
        let run := r.takeWhile (fun ch => ch ≠ '\n')
        let rest := r.dropWhile (fun ch => ch ≠ '\n')
        stripTemporalScan (if run = [] then true else isWordChar (run.getLast!)) rest
      | none => c :: stripTemporalScan (isWordChar c) cs
termination_by _ s => s.length
decreasing_by
  all_goals simp_wf
  all_goals first
    | exact Nat.lt_of_le_of_lt (length_dropWhile_le _ _) (tryWordsCI_length h)
    | omega

/-- `\s+` (maximal munch; backtracking a shorter run can never help because
every continuation starts with a non-space character). -/
def skipSpaces1 : List Char → Option (List Char)
  | [] => none
  | c :: cs => if isSpaceChar c then some (cs.dropWhile isSpaceChar) else none

/-- `[\s:]+` (maximal munch, same argument). -/
def skipSpaceColon : List Char → Option (List Char)
  | [] => none
  | c :: cs =>
    if isSpaceChar c || c = ':' then
      some (cs.dropWhile (fun ch => isSpaceChar ch || ch = ':'))
    else none

/-- The literal keywords of the capture terminator
`(?:\s+by|\s+until|\s+before|\s+tomorrow|\s+today|\s+next|\s+on\s+|$)`. -/
def termKws : List (List Char) :=
  ["by", "until", "before", "tomorrow", "today", "next"].map String.toList

/-- Does the capture terminator match at this point?  (For the lazy capture
only existence matters, not which alternative fires.) -/
def termAt (s : List Char) : Bool :=
  match s with
  | [] => true
  | c :: cs =>
    if isSpaceChar c then
      let r := cs.dropWhile isSpaceChar
      termKws.any (fun w => (litMatchCI w r).isSome) ||
      (match litMatchCI "on".toList r with
       | some r2 =>
         match r2 with
         | c2 :: _ => isSpaceChar c2
         | [] => false
       | none => false)
    else false

/-- The lazy capture `([A-Z][a-zA-Z0-9\s]+?)` followed by the terminator:
after each consumed character (at least one beyond the leading letter is
required by `+?`… the regex `+?` needs ≥ 1 class character, which is the
leading `[A-Z]` being separate means the lazy part tries the terminator after
every extension), try the terminator, else extend by one class character. -/
def lazyCapture (acc : List Char) : List Char → Option (List Char)
  | [] => if termAt [] then some acc.reverse else none
  | c :: cs =>
    if termAt (c :: cs) then some acc.reverse
    else if isCaptureChar c then lazyCapture (c :: acc) cs
    else none

/-- Capture start: one `[A-Z]` letter (any letter under `i`), then the lazy
loop. -/
def captureFrom : List Char → Option (List Char)
  | [] => none
  | c :: cs => if isAsciiLetter c then lazyCapture [c] cs else none

/-- `/\bfor\s+(?:the\s+)?([A-Z][a-zA-Z0-9\s]+?)(?:\s+by|…|$)/i` at one
position (leading `\b` checked by the scanner): `for`, whitespace, an
optional `the` + whitespace (preferred, with fallback), then the capture. -/
def projAt1 (s : List Char) : Option (List Char) :=
  match litMatchCI "for".toList s with
  | none => none
  | some r1 =>
    match skipSpaces1 r1 with
    | none => none
    | some r2 =>
      let withThe :=
        match litMatchCI "the".toList r2 with
        | some r3 =>
          match skipSpaces1 r3 with
          | some r4 => captureFrom r4
          | none => none
        | none => none
      match withThe with
      | some cap => some cap
      | none => captureFrom r2

/-- `/\b(?:project|client|team)[\s:]+([A-Z][a-zA-Z0-9\s]+?)(?:…)/i` at one
position.  The three keywords start with distinct letters, so at most one can
match. -/
def projAt2 (s : List Char) : Option (List Char) :=
  let kw :=
    match litMatchCI "project".toList s with
    | some r => some r
    | none =>
      match litMatchCI "client".toList s with
      | some r => some r
      | none => litMatchCI "team".toList s
  match kw with
  | none => none
  | some r1 =>
    match skipSpaceColon r1 with
    | none => none
    | some r2 => captureFrom r2

/-- Leftmost match of the first project regex (capture group). -/
def projScan1 : Bool → List Char → Option (List Char)
  | _, [] => none
  | prevW, c :: cs =>
    if prevW then projScan1 (isWordChar c) cs
    else
      match projAt1 (c :: cs) with
      | some cap => some cap
      | none => projScan1 (isWordChar c) cs

/-- Leftmost match of the second project regex (capture group). -/
def projScan2 : Bool → List Char → Option (List Char)
  | _, [] => none
  | prevW, c :: cs =>
    if prevW then projScan2 (isWordChar c) cs
    else
      match projAt2 (c :: cs) with
      | some cap => some cap
      | none => projScan2 (isWordChar c) cs

/-! ## Projects, tasks, state -/

/-- A learned project (lines 545-550). -/
structure Project where
  name : List Char
  normalized : List Char
  usageCount : Nat
  createdAt : JsDate
deriving DecidableEq, Repr

/-- The analytics counters of `userStats` that `parseTask` touches. -/
structure UserStats where
  totalInputs : Nat := 0
  localParses : Nat := 0
  cloudParses : Nat := 0
deriving DecidableEq, Repr

/-- The mutable state of a `NeurodoneAI` instance (patterns, projects, stats
and today's API-call counter; `localStorage` persistence is modelled by
threading this state). -/
structure ParseState where
  learnedPatterns : List Pattern := []
  userProjects : List Project := []
  userStats : UserStats := {}
  apiCallsToday : Nat := 0
deriving DecidableEq, Repr

/-- The configuration defaults of the constructor (lines 16-23). -/
structure Config where
  maxFreeCallsPerDay : Nat := 5
  maxPaidCallsPerDay : Nat := 50
  voiceLengthThresholdSeconds : ℚ := 15
  minConfidenceForLocal : ℚ := 75/100
  isPaidUser : Bool := false
deriving DecidableEq, Repr

/-- A generated chunk object (line 385-390). -/
structure ChunkOut where
  id : Nat
  name : List Char
  completed : Bool
  order : Nat
deriving DecidableEq, Repr

/-- A chunk slot of a task record.  The learned-pattern path stores plain
strings in `chunks` (the JavaScript passes `pattern.chunks`, an array of
strings, straight through `formatTaskResult`), every other path stores chunk
objects; the embedding keeps both shapes. -/
inductive ChunkItem
  | obj (c : ChunkOut)
  | str (s : List Char)
deriving DecidableEq, Repr

/-- `chunk.name` as read by the Learning Loop (`c => c.name`); on a plain
string JavaScript would read `undefined`, modelled as the empty string (this
case is unreachable from the learning path, which only sees remote results). -/
def chunkItemName : ChunkItem → List Char
  | .obj c => c.name
  | .str _ => []

/-- The `_parsedBy` tag. -/
inductive ParsedBy
  | local_
  | local_fallback
  | claude
deriving DecidableEq, Repr

/-- A finished task record (`formatTaskResult`, lines 702-712) together with
the `_parsedBy` / `_confidence` / `_rateLimited` metadata `parseTask` adds. -/
structure TaskResult where
  id : Nat
  name : List Char
  project : List Char
  deadline : JsDate
  chunks : List ChunkItem
  completed : Bool
  createdAt : JsDate
  parsedBy : Option ParsedBy
  confidence : Option ℚ
  rateLimited : Bool
deriving DecidableEq, Repr

/-- The heterogeneous `data` argument of `formatTaskResult`: any of the
fields may be absent depending on which parser produced the draft. -/
structure Draft where
  taskName : Option (List Char) := none
  name : Option (List Char) := none
  project : Option (List Char) := none
  deadline : Option JsDate := none
  chunks : Option (List ChunkItem) := none
deriving DecidableEq, Repr

/-- `a || b` on JavaScript strings: an absent or empty string falls through. -/
def orElseStr (a : Option (List Char)) (b : List Char) : List Char :=
  match a with
  | some s => if s = [] then b else s
  | none => b

/-! ## Project learning (`learnProject`, `findKnownProject`) -/

/-- Increment `usageCount` of the first project with the given key. -/
def bumpProject (normalized : List Char) : List Project → List Project
  | [] => []
  | p :: ps =>
    if p.normalized = normalized then
      { p with usageCount := p.usageCount + 1 } :: ps
    else p :: bumpProject normalized ps

/-- `learnProject` (lines 541-557). -/
def learnProject (now : JsDate) (projectName : List Char)
    (projects : List Project) : List Project :=
  let normalized := trimWs (projectName.map Char.toLower)
  if projects.any (fun p => p.normalized = normalized) then
    bumpProject normalized projects
  else
    projects ++ [{ name := projectName, normalized := normalized,
                   usageCount := 1, createdAt := now }]

/-- `findKnownProject` (lines 559-568): the first project whose normalized
name occurs as a substring of the lower-cased text. -/
def findKnownProject (projects : List Project) (text : List Char) :
    Option (List Char) :=
  let lowerText := text.map Char.toLower
  (projects.find? (fun p => (idxOfSub p.normalized lowerText).isSome)).map
    Project.name

/-! ## The Chunk Generator (`generateChunks`, lines 319-391) -/

/-- The ordered task-type taxonomy (substring tests, no anchors). -/
def taskTypes : List (List (List Char) × List (List Char)) :=
  [ (["presentation", "deck", "slides", "pitch"].map String.toList,
     ["Research & gather info", "Create outline", "Design slides",
      "Add content", "Review & polish"].map String.toList)
  , (["report", "document", "write", "article", "blog"].map String.toList,
     ["Outline structure", "Write first draft", "Review & edit",
      "Final polish"].map String.toList)
  , (["email", "message", "reply", "respond"].map String.toList,
     ["Draft message", "Review tone", "Send"].map String.toList)
  , (["meeting", "call", "interview"].map String.toList,
     ["Prepare agenda", "Gather materials", "Attend",
      "Follow up notes"].map String.toList)
  , (["design", "create", "make", "build"].map String.toList,
     ["Research inspiration", "Sketch concepts", "Create draft",
      "Refine details"].map String.toList)
  , (["review", "analyze", "audit"].map String.toList,
     ["Gather materials", "Initial review", "Deep analysis",
      "Write findings"].map String.toList)
  , (["plan", "strategy", "roadmap"].map String.toList,
     ["Research & context", "Brainstorm options", "Draft plan",
      "Review & finalize"].map String.toList)
  , (["fix", "debug", "solve", "repair"].map String.toList,
     ["Identify issue", "Research solution", "Implement fix",
      "Test & verify"].map String.toList)
  , (["learn", "study", "course", "read"].map String.toList,
     ["Set up environment", "First session", "Practice",
      "Review notes"].map String.toList)
  , (["buy", "purchase", "order", "shop"].map String.toList,
     ["Research options", "Compare prices", "Make purchase"].map
       String.toList) ]

/-- `getLearnedChunksForTask` (lines 570-580): chunks of the first fuzzily
matching pattern with a non-empty chunk list. -/
def getLearnedChunksForTask (store : List Pattern) (taskName : List Char) :
    Option (List (List Char)) :=
  let normalized := normalizeForMatching taskName
  (store.find? (fun p =>
    patternsMatch normalized p.normalized && !p.chunks.isEmpty)).map
    Pattern.chunks

/-- `generateChunks`: pick the first matching task-type template (default
`[Start task, Main work, Finish up]`), replace it by a non-empty learned
chunk set if one fuzzily matches, then materialise chunk objects with fresh
ids and dense `order`. -/
def generateChunks (store : List Pattern) (gen : Nat) (taskName : List Char) :
    List ChunkOut × Nat :=
  let nameLower := taskName.map Char.toLower
  let fromTypes :=
    match taskTypes.find? (fun t =>
      t.1.any (fun p => (idxOfSub p nameLower).isSome)) with
    | some t => t.2
    | none => []
  let chunkTemplates :=
    if fromTypes.isEmpty then
      ["Start task", "Main work", "Finish up"].map String.toList
    else fromTypes
  let finalTemplates :=
    match getLearnedChunksForTask store nameLower with
    | some learned => if 0 < learned.length then learned else chunkTemplates
    | none => chunkTemplates
  (finalTemplates.enum.map (fun p =>
     { id := gen + p.1, name := p.2, completed := false, order := p.1 }),
   gen + finalTemplates.length)

/-! ## `formatTaskResult`, the Rule-Based Parser and the local path -/

/-- `formatTaskResult` (lines 702-712): fill every absent field with its
default (`Untitled Task`, `Inbox`, now + 1 day, generated chunks). -/
def formatTaskResult (now : JsDate) (store : List Pattern) (gen : Nat)
    (data : Draft) : TaskResult × Nat :=
  let tid := gen
  let chunksGen : List ChunkItem × Nat :=
    match data.chunks with
    | some l => (l, gen + 1)
    | none =>
      let g := generateChunks store (gen + 1)
        (orElseStr data.taskName (orElseStr data.name []))
      (g.1.map ChunkItem.obj, g.2)
  ({ id := tid
     name := orElseStr data.taskName (orElseStr data.name "Untitled Task".toList)
     project := orElseStr data.project "Inbox".toList
     deadline := data.deadline.getD (addOneDay now)
     chunks := chunksGen.1
     completed := false
     createdAt := now
     parsedBy := none
     confidence := none
     rateLimited := false }, chunksGen.2)

/-- `ruleBasedParse` (lines 219-262). -/
def ruleBasedParse (now : JsDate) (st : ParseState) (gen : Nat)
    (text : List Char) : TaskResult × ParseState × Nat :=
  let lowerText := text.map Char.toLower
  let stripped := trimWs (collapseWs (stripTemporalScan false text))
  let taskName0 := capFirst stripped
  let taskName := if taskName0 = [] then capFirst text else taskName0
  let captured :=
    match projScan1 false text with
    | some m => some m
    | none => projScan2 false text
  let project :=
    match captured with
    | some m =>
      let pr := trimWs m
      match findKnownProject st.userProjects pr with
      | some known => known
      | none => pr
    | none => "Inbox".toList
  let deadline := extractDeadline now lowerText
  let gc := generateChunks st.learnedPatterns gen taskName
  let st' :=
    if project ≠ "Inbox".toList then
      { st with userProjects := learnProject now project st.userProjects }
    else st
  let ft :=
    formatTaskResult now st.learnedPatterns gc.2
      { taskName := some taskName, project := some project,
        deadline := some deadline, chunks := some (gc.1.map ChunkItem.obj) }
  (ft.1, st', ft.2)

/-- `applyPatternTemplate` (lines 513-517): currently a capitalisation pass
only. -/
def applyPatternTemplate (input : List Char)
    (_template : List Char × List Char) : List Char :=
  capFirst input

/-- `extractWithPattern` (lines 519-535): find the keyword anchor in the
lower-cased input and capitalise the first word after it. -/
def extractWithPattern (input : List Char)
    (pat : Option (List Char × List Char)) : Option (List Char) :=
  match pat with
  | none => none
  | some (keyword, _) =>
    if keyword = [] then none
    else
      let lowerInput := input.map Char.toLower
      match idxOfSub keyword lowerInput with
      | some index =>
        let after := trimWs (input.drop (index + keyword.length))
        some (capFirst (after.takeWhile (fun c => !isSpaceChar c)))
      | none => none

/-- `applyLearnedPatterns` (lines 411-424).  `pattern.chunks` is always an
array (arrays are truthy even when empty), so the learned chunk strings are
passed through as-is. -/
def applyLearnedPatterns (now : JsDate) (st : ParseState) (gen : Nat)
    (input : List Char) : Option (TaskResult × Nat) :=
  match findMatchingPattern input st.learnedPatterns with
  | none => none
  | some (pattern, _) =>
    some (formatTaskResult now st.learnedPatterns gen
      { taskName := some (applyPatternTemplate input pattern.taskNameTemplate)
        project := some (orElseStr (extractWithPattern input pattern.projectPattern)
          (orElseStr (some pattern.defaultProject) "Inbox".toList))
        deadline := some (extractDeadline now (input.map Char.toLower))
        chunks := some (pattern.chunks.map ChunkItem.str) })

/-- `parseLocally` (lines 206-217). -/
def parseLocally (now : JsDate) (st : ParseState) (gen : Nat)
    (input : List Char) : TaskResult × ParseState × Nat :=
  let text := trimWs input
  match applyLearnedPatterns now st gen text with
  | some tg => (tg.1, st, tg.2)
  | none => ruleBasedParse now st gen text

/-! ## The Strategy Selector heuristics (lines 139-200) -/

/-- `/^(finish|complete|do|make|create|write|send|call|email|buy|get|fix|update|review)/i`
(anchored, no trailing boundary). -/
def clearVerbs : List (List Char) :=
  ["finish", "complete", "do", "make", "create", "write", "send", "call",
   "email", "buy", "get", "fix", "update", "review"].map String.toList

/-- `/(by|until|before|tomorrow|today|monday|…|friday|next week)/i`
(plain substring, no boundaries). -/
def temporalKws : List (List Char) :=
  ["by", "until", "before", "tomorrow", "today", "monday", "tuesday",
   "wednesday", "thursday", "friday", "next week"].map String.toList

/-- `/(for|project|client|team|work|meeting)/i` (plain substring). -/
def contextKws : List (List Char) :=
  ["for", "project", "client", "team", "work", "meeting"].map String.toList

/-- Is any of the literals a substring of the text? -/
def containsAny (kws : List (List Char)) (text : List Char) : Bool :=
  kws.any (fun w => (idxOfSub w text).isSome)

/-- `estimateLocalConfidence` (lines 139-164), in exact rational
arithmetic. -/
def estimateLocalConfidence (projects : List Project) (input : List Char) : ℚ :=
  let text := input.map Char.toLower
  let c0 : ℚ := 1/2
  let c1 := if clearVerbs.any (fun w => w.isPrefixOf text) then c0 + 1/10 else c0
  let c2 := if containsAny temporalKws text then c1 + 1/10 else c1
  let c3 := if containsAny contextKws text then c2 + 1/10 else c2
  let c4 := if (findKnownProject projects text).isSome then c3 + 15/100 else c3
  let c5 :=
    if (idxOfSub " and ".toList text).isSome && (idxOfSub " then ".toList text).isSome
    then c4 - 2/10 else c4
  let c6 := if 20 < (splitSp text).length then c5 - 15/100 else c5
  let c7 := if 3 < text.count ',' then c6 - 1/10 else c6
  max 0 (min 1 c7)

/-- `/\b(first|then|after that|also|and then|next|finally)\b/g`. -/
def multiTransitionWords : List (List Char) :=
  ["first", "then", "after that", "also", "and then", "next",
   "finally"].map String.toList

/-- `/\b(finish|complete|do|make|create|write|send|call|email|buy|get|fix|update|review|prepare|schedule)\b/g`. -/
def actionVerbs : List (List Char) :=
  ["finish", "complete", "do", "make", "create", "write", "send", "call",
   "email", "buy", "get", "fix", "update", "review", "prepare",
   "schedule"].map String.toList

/-- The tail after a `\d+\)\s` match starting at a digit run. -/
def numListTail (cs : List Char) : Option (List Char) :=
  match cs.dropWhile Char.isDigit with
  | a :: b :: r => if a = ')' && isSpaceChar b then some r else none
  | _ => none

theorem numListTail_length {cs r : List Char} (h : numListTail cs = some r) :
    r.length < cs.length + 1 := by
  have hle := length_dropWhile_le Char.isDigit cs
  unfold numListTail at h
  revert h
  cases hd : cs.dropWhile Char.isDigit with
  | nil => intro h; exact absurd h (by simp)
  | cons a t =>
    cases t with
    | nil => intro h; exact absurd h (by simp)
    | cons b r' =>
      intro h
      rw [hd] at hle
      simp only [List.length_cons] at hle
      dsimp only at h
      by_cases hc : (a = ')' && isSpaceChar b) = true
      · rw [if_pos hc] at h
        injection h with h'
        subst h'
        omega
      · rw [if_neg hc] at h
        exact absurd h (by simp)

/-- Count of `/\d+\)\s/g` matches (numbered-list markers). -/
def countNumList : List Char → Nat
  | [] => 0
  | c :: cs =>
    if c.isDigit then
      match h : numListTail cs with
      | some r => 1 + countNumList r
      | none => countNumList cs
    else countNumList cs
termination_by s => s.length
decreasing_by
  all_goals simp_wf
  all_goals first
    | (have hnl := numListTail_length h; omega)
    | omega

/-- The bullet literal of `/â€¢|-\s/g` (the mojibake three-character sequence
appears verbatim in the source). -/
def bulletTail (s : List Char) : Option (List Char) :=
  litMatch "â€¢".toList s

theorem bulletTail_length {s r : List Char} (h : bulletTail s = some r) :
    r.length < s.length := by
  have h2 := litMatch_length h
  have h3 : ("â€¢".toList).length = 3 := rfl
  omega

/-- The tail after a `-\s` match. -/
def dashTail (c : Char) (cs : List Char) : Option (List Char) :=
  match cs with
  | c2 :: r2 => if c = '-' && isSpaceChar c2 then some r2 else none
  | [] => none

theorem dashTail_length {c : Char} {cs r : List Char}
    (h : dashTail c cs = some r) : r.length < cs.length + 1 := by
  unfold dashTail at h
  revert h
  cases cs with
  | nil => intro h; exact absurd h (by simp)
  | cons c2 r2 =>
    intro h
    dsimp only at h
    by_cases hc : (c = '-' && isSpaceChar c2) = true
    · rw [if_pos hc] at h
      injection h with h'
      subst h'
      simp only [List.length_cons]
      omega
    · rw [if_neg hc] at h
      exact absurd h (by simp)

/-- Count of `/â€¢|-\s/g` matches. -/
def countBullets : List Char → Nat
  | [] => 0
  | c :: cs =>
    match h : bulletTail (c :: cs) with
    | some r => 1 + countBullets r
    | none =>
      match h2 : dashTail c cs with
      | some r2 => 1 + countBullets r2
      | none => countBullets cs
termination_by s => s.length
decreasing_by
  all_goals simp_wf
  all_goals first
    | exact bulletTail_length h
    | (have hdt := dashTail_length h2; omega)
    | omega

/-- `detectsMultipleTasks` (lines 166-187). -/
def detectsMultipleTasks (input : List Char) : Bool :=
  let text := input.map Char.toLower
  let score := countWords multiTransitionWords false text
    + countNumList text + countBullets text
  let andCount := countWords ["and".toList] false text
  let verbCount := countWords actionVerbs false text
  let score' := if 2 ≤ andCount && 2 ≤ verbCount then score + 2 else score
  decide (2 ≤ score')

/-- `/^(something|stuff|things?|that thing)\b/` with `things?` expanded into
its greedy alternatives. -/
def ambigStartWords : List (List Char) :=
  ["something", "stuff", "things", "thing", "that thing"].map String.toList

/-- `/\b(maybe|probably|might|could|not sure|i think)\b/`. -/
def hedgeWords : List (List Char) :=
  ["maybe", "probably", "might", "could", "not sure", "i think"].map
    String.toList

/-- `isAmbiguous` (lines 189-200): vague opening word, hedging word anywhere,
or a trailing question mark (`/\?\s*$/`). -/
def isAmbiguous (input : List Char) : Bool :=
  let text := input.map Char.toLower
  (tryWords ambigStartWords text).isSome ||
  hasWords hedgeWords false text ||
  (match text.reverse.dropWhile isSpaceChar with
   | c :: _ => c = '?'
   | [] => false)

/-! ## The Strategy Selector (`decideParsingStrategy`, lines 92-137) -/

/-- The two possible strategies. -/
inductive Strategy
  | local_
  | cloud
deriving DecidableEq, Repr

/-- The recorded decision reasons, in source spelling. -/
inductive Reason
  | coach_mode
  | forced
  | long_voice_input
  | learned_pattern
  | high_local_confidence
  | multiple_tasks
  | ambiguous
  | short_simple_input
  | uncertain
deriving DecidableEq, Repr

/-- The `{strategy, confidence, reason}` record. -/
structure Decision where
  strategy : Strategy
  confidence : ℚ
  reason : Reason
deriving DecidableEq, Repr

/-- Rules 5-9 of the selector (shared continuation of the two branches after
the learned-pattern test). -/
def decideTail (cfg : Config) (projects : List Project) (input : List Char) :
    Decision :=
  let localConfidence := estimateLocalConfidence projects input
  if cfg.minConfidenceForLocal ≤ localConfidence then
    ⟨.local_, localConfidence, .high_local_confidence⟩
  else if detectsMultipleTasks input then
    ⟨.cloud, localConfidence, .multiple_tasks⟩
  else if isAmbiguous input then
    ⟨.cloud, localConfidence, .ambiguous⟩
  else if (splitSp input).length < 10 then
    ⟨.local_, 6/10, .short_simple_input⟩
  else
    ⟨.cloud, localConfidence, .uncertain⟩

/-- `decideParsingStrategy`: the nine ordered decision rules,
first applicable wins. -/
def decideParsingStrategy (cfg : Config) (store : List Pattern)
    (projects : List Project) (input : List Char)
    (voiceDurationSeconds : ℚ) (forceCloud isCoachMode : Bool) : Decision :=
  if isCoachMode then ⟨.cloud, 0, .coach_mode⟩
  else if forceCloud then ⟨.cloud, 0, .forced⟩
  else if cfg.voiceLengthThresholdSeconds < voiceDurationSeconds then
    ⟨.cloud, 0, .long_voice_input⟩
  else
    match findMatchingPattern input store with
    | some (_, conf) =>
      if cfg.minConfidenceForLocal ≤ conf then ⟨.local_, conf, .learned_pattern⟩
      else decideTail cfg projects input
    | none => decideTail cfg projects input

/-! ## Rate limiting and the main entry point (`parseTask`) -/

/-- `canMakeApiCall` (lines 620-624). -/
def canMakeApiCall (cfg : Config) (st : ParseState) : Bool :=
  let limit := if cfg.isPaidUser then cfg.maxPaidCallsPerDay
               else cfg.maxFreeCallsPerDay
  decide (st.apiCallsToday < limit)

/-- Outcome of the remote model call inside `parseWithClaude`: a parsed JSON
draft, or any network/HTTP/JSON failure (all of which land in the same
`catch`). -/
inductive RemoteOutcome
  | ok (draft : Draft)
  | fail
deriving DecidableEq, Repr

/-- `parseWithClaude` (lines 586-614): on success, format the remote draft;
on any failure, fall back to `ruleBasedParse` on the raw input. -/
def parseWithClaude (now : JsDate) (st : ParseState) (gen : Nat)
    (input : List Char) (remote : RemoteOutcome) :
    TaskResult × ParseState × Nat :=
  match remote with
  | .ok draft =>
    let ft := formatTaskResult now st.learnedPatterns gen draft
    (ft.1, st, ft.2)
  | .fail => ruleBasedParse now st gen input

/-- The `options` argument of `parseTask`. -/
structure ParseOptions where
  voiceDurationSeconds : ℚ := 0
  forceCloud : Bool := false
  isCoachMode : Bool := false
deriving DecidableEq, Repr

/-- The fields of a formatted result that `learnFromClaudeResponse` reads. -/
def taskToRemoteParse (t : TaskResult) : RemoteParse :=
  { name := t.name, project := t.project,
    chunks := some (t.chunks.map (fun c => ⟨chunkItemName c⟩)) }

/-- `parseTask` (lines 38-86), the main entry point: bump the input counter,
decide a strategy, run the local path or (quota permitting) the remote path
with learning, and tag the result. -/
def parseTask (cfg : Config) (now : JsDate) (st : ParseState) (gen : Nat)
    (input : List Char) (opts : ParseOptions) (remote : RemoteOutcome) :
    TaskResult × ParseState × Nat :=
  let st1 := { st with userStats :=
    { st.userStats with totalInputs := st.userStats.totalInputs + 1 } }
  let decision := decideParsingStrategy cfg st1.learnedPatterns
    st1.userProjects input opts.voiceDurationSeconds opts.forceCloud
    opts.isCoachMode
  if decision.strategy = .local_ then
    let pr := parseLocally now st1 gen input
    ({ pr.1 with
        parsedBy := some .local_
        confidence := some decision.confidence },
     { pr.2.1 with userStats := { pr.2.1.userStats with
         localParses := pr.2.1.userStats.localParses + 1 } },
     pr.2.2)
  else if !canMakeApiCall cfg st1 then
    let pr := parseLocally now st1 gen input
    ({ pr.1 with parsedBy := some .local_fallback, rateLimited := true },
     pr.2.1, pr.2.2)
  else
    let pr := parseWithClaude now st1 gen input remote
    let tagged := { pr.1 with parsedBy := some .claude }
    let lrn := learnFromClaudeResponse now pr.2.2 input
      (taskToRemoteParse tagged) pr.2.1.learnedPatterns
    (tagged,
     { pr.2.1 with learnedPatterns := lrn.1
                   apiCallsToday := pr.2.1.apiCallsToday + 1
                   userStats := { pr.2.1.userStats with
                     cloudParses := pr.2.1.userStats.cloudParses + 1 } },
     lrn.2)

/-! ## The serverless proxy gate (`parse-task.js`) -/

/-- One entry of the in-memory `rateLimitMap`. -/
structure RateEntry where
  userId : List Char
  count : Nat
  timestamp : Int
deriving DecidableEq, Repr

/-- Overwrite the entry for a user (`rateLimitMap.set`). -/
def setRateEntry (e : RateEntry) : List RateEntry → List RateEntry
  | [] => [e]
  | x :: xs => if x.userId = e.userId then e :: xs else x :: setRateEntry e xs

/-- `checkRateLimit` (parse-task.js lines 13-28): 30 requests per rolling
24-hour window per user. -/
def checkRateLimit (nowMs : Int) (store : List RateEntry) (userId : List Char) :
    (Bool × Nat) × List RateEntry :=
  match store.find? (fun e => e.userId = userId) with
  | none =>
    ((true, 30 - 1), setRateEntry ⟨userId, 1, nowMs⟩ store)
  | some e =>
    if 24 * 60 * 60 * 1000 < nowMs - e.timestamp then
      ((true, 30 - 1), setRateEntry ⟨userId, 1, nowMs⟩ store)
    else if 30 ≤ e.count then ((false, 0), store)
    else ((true, 30 - (e.count + 1)),
          setRateEntry { e with count := e.count + 1 } store)

/-- The parsed task JSON returned by the model behind the proxy. -/
structure ApiTask where
  name : List Char
  project : List Char
  deadline : List Char
  chunks : List ChunkRec
deriving DecidableEq, Repr

/-- The model call as seen by the handler: a parseable task, an unparseable
payload (even after the code-fence cleanup pass), or an HTTP error. -/
inductive ApiReply
  | ok (t : ApiTask)
  | badJson
  | httpError
deriving DecidableEq, Repr

/-- A chunk as materialised by the handler (`{id, …chunk, completed}`). -/
structure ServerChunk where
  id : Nat
  name : List Char
  completed : Bool
deriving DecidableEq, Repr

/-- The task record the handler returns. -/
structure ServerTask where
  id : Nat
  name : List Char
  project : List Char
  deadline : List Char
  chunks : List ServerChunk
  completed : Bool
deriving DecidableEq, Repr

/-- The possible handler responses, by status. -/
inductive HandlerResp
  | corsOk
  | methodNotAllowed
  | invalidInput
  | rateLimited
  | aiFailed
  | parseFailed
  | ok (task : ServerTask) (remaining : Nat)
deriving DecidableEq, Repr

/-- HTTP methods the handler distinguishes. -/
inductive HttpMethod
  | options
  | post
  | other
deriving DecidableEq, Repr

/-- The serverless `handler` (parse-task.js lines 30-178): CORS preflight,
method check, the empty-input rejection (`!text || text.trim().length === 0`
→ 400 `No text provided`), rate limiting, then the remote call. -/
def handler (method : HttpMethod) (text userId : List Char) (nowMs : Int)
    (rl : List RateEntry) (reply : ApiReply) (gen : Nat) :
    HandlerResp × List RateEntry :=
  if method = .options then (.corsOk, rl)
  else if method ≠ .post then (.methodNotAllowed, rl)
  else if text = [] || trimWs text = [] then (.invalidInput, rl)
  else
    let ((allowed, remaining), rl') := checkRateLimit nowMs rl userId
    if !allowed then (.rateLimited, rl')
    else
      match reply with
      | .httpError => (.aiFailed, rl')
      | .badJson => (.parseFailed, rl')
      | .ok t =>
        (.ok { id := gen
               name := t.name
               project := t.project
               deadline := t.deadline
               chunks := t.chunks.enum.map (fun p =>
                 { id := gen + 1 + p.1, name := p.2.name, completed := false })
               completed := false }
           remaining, rl')

/-! ## Claim theorems -/

/-- The `userStats.totalInputs` bump performed at the top of `parseTask`
(named so the quota-downgrade theorem can refer to the intermediate state). -/
def bumpTotalInputs (st : ParseState) : ParseState :=
  { st with userStats :=
    { st.userStats with totalInputs := st.userStats.totalInputs + 1 } }

/-- **C5** — Strategy Selector top rules: for every input, duration and
`forceCloud` flag, coach mode always decides `cloud`/`coach_mode`; and with
coach mode and `forceCloud` off, a voice duration strictly above the
threshold decides `cloud`/`long_voice_input`.  The rules are ordered,
first-match-wins. -/
theorem strategy_selector_top_rules (cfg : Config) (store : List Pattern)
    (projects : List Project) (input : List Char) (dur : ℚ) (force : Bool) :
    decideParsingStrategy cfg store projects input dur force true =
      ⟨.cloud, 0, .coach_mode⟩ ∧
    (cfg.voiceLengthThresholdSeconds < dur →
      decideParsingStrategy cfg store projects input dur false false =
        ⟨.cloud, 0, .long_voice_input⟩) := by
  refine ⟨rfl, fun h => ?_⟩
  unfold decideParsingStrategy
  rw [if_neg (by simp), if_neg (by simp), if_pos h]

/-- Witness for **C5** at the spec's own test vector
(`decide("buy milk", 20, false, false)` with the default 15-second
threshold). -/
theorem strategy_selector_top_rules_witness :
    (({} : Config).voiceLengthThresholdSeconds < (20 : ℚ)) ∧
    decideParsingStrategy {} [] [] "buy milk".toList 20 true true =
      ⟨.cloud, 0, .coach_mode⟩ ∧
    decideParsingStrategy {} [] [] "buy milk".toList 20 false false =
      ⟨.cloud, 0, .long_voice_input⟩ :=
  ⟨by decide,
   (strategy_selector_top_rules {} [] [] "buy milk".toList 20 true).1,
   (strategy_selector_top_rules {} [] [] "buy milk".toList 20 false).2
     (by decide)⟩

/-- **C6** — Quota downgrade: whenever the chosen strategy is `cloud` but
`canMakeApiCall` is false, `parseTask` returns the locally parsed task tagged
`_parsedBy = 'local_fallback'` and `_rateLimited = true`, without consulting
the remote outcome at all (the right-hand side does not mention `remote`);
being a total function, it raises no error.  This covers `forceCloud = true`
and coach mode alike, since the hypothesis only constrains the decision. -/
theorem quota_downgrade (cfg : Config) (now : JsDate) (st : ParseState)
    (gen : Nat) (input : List Char) (opts : ParseOptions)
    (remote : RemoteOutcome)
    (hcloud : (decideParsingStrategy cfg st.learnedPatterns st.userProjects
        input opts.voiceDurationSeconds opts.forceCloud
        opts.isCoachMode).strategy = .cloud)
    (hquota : canMakeApiCall cfg st = false) :
    parseTask cfg now st gen input opts remote =
      ({ (parseLocally now (bumpTotalInputs st) gen input).1 with
          parsedBy := some .local_fallback
          rateLimited := true },
       (parseLocally now (bumpTotalInputs st) gen input).2.1,
       (parseLocally now (bumpTotalInputs st) gen input).2.2) := by
  simp only [parseTask, canMakeApiCall] at *
  dsimp only at *
  rw [hcloud]
  rw [if_neg (show ¬(Strategy.cloud = Strategy.local_) by decide)]
  rw [hquota]
  rw [if_pos (show (!false) = true by decide)]
  rfl

/-- Witness for **C6**: free-tier quota exhausted (5 calls), `forceCloud`
set; the result is rate-limited, locally parsed, and equal to the tagged
local parse. -/
theorem quota_downgrade_witness :
    ((decideParsingStrategy {} ({ apiCallsToday := 5 } : ParseState).learnedPatterns
        ({ apiCallsToday := 5 } : ParseState).userProjects "buy milk".toList 0 true
        false).strategy = .cloud) ∧
    (canMakeApiCall {} { apiCallsToday := 5 } = false) ∧
    ((parseTask {} (mkJsDate 2025 0 15) { apiCallsToday := 5 } 0
        "buy milk".toList { forceCloud := true } .fail).1.rateLimited = true) ∧
    ((parseTask {} (mkJsDate 2025 0 15) { apiCallsToday := 5 } 0
        "buy milk".toList { forceCloud := true } .fail).1.parsedBy =
      some .local_fallback) := by
  refine ⟨by decide, by decide, ?_, ?_⟩ <;>
    rw [quota_downgrade {} (mkJsDate 2025 0 15) { apiCallsToday := 5 } 0
      "buy milk".toList { forceCloud := true } .fail (by decide) (by decide)]

/-- **C7** — the weekday rule at a month boundary (code bug).  On Friday
2025-01-31 (`getDay = 5`), the input `"call on monday"` should yield the next
Monday strictly after today, 2025-02-03; the code instead yields 2025-03-06
(a Thursday), because the weekday offset is applied with `setDate` to the
`deadline` object that has already been shifted into February.  This theorem
evaluates the embedded code at the failing input: today is a Friday, the next
Monday is 2025-02-03, yet the result is 2025-03-06, which is not a Monday. -/
theorem weekday_rule_month_end_bug :
    jsGetDay (mkJsDate 2025 0 31) = 5 ∧
    jsGetDay (mkJsDate 2025 1 3) = 1 ∧
    extractDeadline (mkJsDate 2025 0 31) "call on monday".toList =
      mkJsDate 2025 2 6 ∧
    jsGetDay (mkJsDate 2025 2 6) = 4 := by
  decide

/-- **C8** — Numeric-date override: whenever the slash/dash date pattern
matches anywhere in the text, the result of `extractDeadline` is determined
entirely by the captured month/day/year — the rule-list outcome is discarded
— and an omitted year defaults to the current year. -/
theorem numeric_date_overrides (now : JsDate) (text : List Char)
    (mo dy : Nat) (yr : Option Nat)
    (h : dateScan false text = some (mo, dy, yr)) :
    extractDeadline now text =
      mkJsDate (yr.elim (jsGetFullYear now) (fun y => (y : Int)))
        ((mo : Int) - 1) (dy : Int) := by
  unfold extractDeadline
  rw [h]

/-- Witness for **C8**: `"pay rent 1/25 tomorrow"` on 2025-01-15 — the
`tomorrow` rule is overridden by the numeric date, and the omitted year
defaults to 2025. -/
theorem numeric_date_overrides_witness :
    dateScan false "pay rent 1/25 tomorrow".toList = some (1, 25, none) ∧
    extractDeadline (mkJsDate 2025 0 15) "pay rent 1/25 tomorrow".toList =
      mkJsDate 2025 0 25 := by
  refine ⟨by decide, ?_⟩
  rw [numeric_date_overrides (mkJsDate 2025 0 15)
    "pay rent 1/25 tomorrow".toList 1 25 none (by decide)]
  decide

/-- **C1** — Pattern-learning round-trip: learning from the remote result
`{project: "Groceries", chunks: ["Go to store"]}` for the input
`"buy milk for groceries project"` and then looking the same input up again
returns a match: the reported confidence is `1 ≥ 0.7` and the matched
pattern carries the learned chunk list. -/
theorem pattern_learning_roundtrip :
    ((findMatchingPattern "buy milk for groceries project".toList
        ((learnFromClaudeResponse (mkJsDate 2025 0 15) 0
          "buy milk for groceries project".toList
          { name := "Buy milk".toList
            project := "Groceries".toList
            chunks := some [⟨"Go to store".toList⟩] } []).1)).map
      (fun res => (res.2, res.1.chunks)) =
        some (1, ["Go to store".toList])) ∧
    (7/10 : ℚ) ≤ 1 := by
  constructor
  · with_unfolding_all decide
  · norm_num

/-- **C9 counterexample** — the core's own entry point does *not* reject
empty input: `parseTask` on the empty string produces a complete task named
`Untitled Task` with the default three chunks (the rejection lives only in
the serverless handler). -/
theorem empty_input_core_produces_task :
    ((parseTask {} (mkJsDate 2025 0 15) {} 0 [] {} .fail).1.name =
      "Untitled Task".toList) ∧
    ((parseTask {} (mkJsDate 2025 0 15) {} 0 [] {} .fail).1.chunks.length = 3)
    := by with_unfolding_all decide

/-- `[]` trims to `[]`. -/
theorem trimWs_nil : trimWs [] = [] := rfl

/-- `orElseStr` with a non-empty default is non-empty. -/
theorem orElseStr_ne_nil (a : Option (List Char)) {b : List Char}
    (hb : b ≠ []) : orElseStr a b ≠ [] := by
  cases a with
  | none => exact hb
  | some s =>
    show (if s = [] then b else s) ≠ []
    split
    · exact hb
    · assumption

/-- Every `formatTaskResult` output has a non-empty name. -/
theorem formatTaskResult_name_ne_nil (now : JsDate) (store : List Pattern)
    (gen : Nat) (d : Draft) : (formatTaskResult now store gen d).1.name ≠ [] := by
  show orElseStr d.taskName (orElseStr d.name "Untitled Task".toList) ≠ []
  exact orElseStr_ne_nil _ (orElseStr_ne_nil _ (by decide))

/-- Every `ruleBasedParse` result has a non-empty name. -/
theorem ruleBasedParse_name_ne_nil (now : JsDate) (st : ParseState)
    (gen : Nat) (text : List Char) :
    (ruleBasedParse now st gen text).1.name ≠ [] := by
  unfold ruleBasedParse
  dsimp only
  apply formatTaskResult_name_ne_nil

/-- Every `parseLocally` result has a non-empty name. -/
theorem parseLocally_name_ne_nil (now : JsDate) (st : ParseState)
    (gen : Nat) (input : List Char) :
    (parseLocally now st gen input).1.name ≠ [] := by
  unfold parseLocally
  dsimp only
  cases h : applyLearnedPatterns now st gen (trimWs input) with
  | none => exact ruleBasedParse_name_ne_nil now st gen (trimWs input)
  | some tg =>
    unfold applyLearnedPatterns at h
    cases h2 : findMatchingPattern (trimWs input) st.learnedPatterns with
    | none => rw [h2] at h; exact absurd h (by simp)
    | some pc =>
      rw [h2] at h
      dsimp only at h
      injection h with h'
      subst h'
      dsimp only
      apply formatTaskResult_name_ne_nil

/-- Every `parseWithClaude` result has a non-empty name. -/
theorem parseWithClaude_name_ne_nil (now : JsDate) (st : ParseState)
    (gen : Nat) (input : List Char) (remote : RemoteOutcome) :
    (parseWithClaude now st gen input remote).1.name ≠ [] := by
  cases remote with
  | ok draft => exact orElseStr_ne_nil _ (orElseStr_ne_nil _ (by decide))
  | fail => exact ruleBasedParse_name_ne_nil now st gen input

/-- **C9 amended** — the input-validation rejection lives in the serverless
handler, not in the core: for a POST request the handler answers
`400 invalidInput` exactly when the text is empty or whitespace-only; the
core's `parseTask` itself never declines — it returns a task with a non-empty
name for every input whatsoever. -/
theorem invalid_input_gate (text userId : List Char) (nowMs : Int)
    (rl : List RateEntry) (reply : ApiReply) (gen : Nat) :
    ((handler .post text userId nowMs rl reply gen).1 =
        HandlerResp.invalidInput ↔ trimWs text = []) ∧
    ∀ (cfg : Config) (now : JsDate) (st : ParseState) (g : Nat)
      (input : List Char) (opts : ParseOptions) (remote : RemoteOutcome),
      (parseTask cfg now st g input opts remote).1.name ≠ [] := by
  constructor
  · unfold handler
    rw [if_neg (by decide), if_neg (by decide)]
    by_cases ht : trimWs text = []
    · simp [ht]
    · have htx : ¬(text = []) := by
        intro hx; rw [hx] at ht; exact ht rfl
      simp only [htx, ht, decide_False, Bool.or_self, Bool.false_or]
      rw [if_neg (by simp [htx, ht])]
      constructor
      · intro hcontra
        revert hcontra
        rcases checkRateLimit nowMs rl userId with ⟨⟨allowed, remaining⟩, rl'⟩
        cases allowed <;> cases reply <;> simp
      · intro hcontra; exact hcontra.elim
  · intro cfg now st g input opts remote
    unfold parseTask
    dsimp only
    split
    · exact parseLocally_name_ne_nil _ _ _ _
    · split
      · exact parseLocally_name_ne_nil _ _ _ _
      · exact parseWithClaude_name_ne_nil _ _ _ _ _

/-- From the claim's wording (spec §4.2): accept when
`|intersection of token multisets| / max(|tokensA|, |tokensB|) ≥ 0.7`, the
multiset intersection computed by `List.bagInter` (each shared token counted
with the minimum of its two multiplicities).  This is the spec-side
definition, to be compared against the source-side `patternsMatch`. -/
def multisetIntersectionAccepts (a b : List Char) : Bool :=
  let wordsA := splitSp a
  let wordsB := splitSp b
  decide (7 * max wordsA.length wordsB.length ≤
    10 * (wordsA.bagInter wordsB).length)

/-- **C3 counterexample** — on the normalized pair `("x x", "x")` the code
accepts (its match count takes every token of `a` found in `b`, with `a`'s
multiplicity: 2 of 2), while the claimed multiset-intersection rule rejects
(`|{x} ∩ {x,x}| = 1` of `max = 2`, i.e. 0.5 < 0.7). -/
theorem patternsMatch_not_multiset_intersection :
    patternsMatch (normalizeForMatching "x x".toList)
        (normalizeForMatching "x".toList) = true ∧
    multisetIntersectionAccepts (normalizeForMatching "x x".toList)
        (normalizeForMatching "x".toList) = false := by
  with_unfolding_all decide

/-- `splitSp` never returns an empty token list (mirroring
`"".split(' ') = [""]`). -/
theorem splitSp_length_pos (s : List Char) : 0 < (splitSp s).length := by
  cases s with
  | nil => simp [splitSp]
  | cons c cs =>
    simp only [splitSp]
    split
    · simp
    · split <;> simp

/-- **C3 amended** — the matcher tokenizes both strings on single spaces and
accepts exactly when the number of `a`-tokens (with multiplicity) that occur
among `b`'s tokens, divided by `max(|tokensA|, |tokensB|)`, is at least 0.7;
and `findMatchingPattern` returns the first pattern in store order clearing
this threshold (`List.find?` semantics), not a global best match. -/
theorem pattern_similarity_amended :
    (∀ a b : List Char,
      patternsMatch a b = true ↔
        (7 : ℚ)/10 ≤
          (((splitSp a).countP (fun w => (splitSp b).contains w) : ℚ) /
            (max (splitSp a).length (splitSp b).length : ℚ))) ∧
    (∀ (input : List Char) (store : List Pattern),
      findMatchingPattern input store =
        (store.find? (fun p =>
          patternsMatch (normalizeForMatching input) p.normalized)).map
          (fun p => (p, patternConfidence p))) := by
  constructor
  · intro a b
    simp only [patternsMatch, decide_eq_true_eq]
    have hM : 0 < max (splitSp a).length (splitSp b).length :=
      lt_of_lt_of_le (splitSp_length_pos a) (le_max_left _ _)
    rw [div_le_div_iff (by norm_num : (0:ℚ) < 10) (by exact_mod_cast hM)]
    rw [mul_comm ((((splitSp a).countP fun w => (splitSp b).contains w) : ℚ)) 10]
    exact_mod_cast Iff.rfl
  · intro input store
    unfold findMatchingPattern
    induction store with
    | nil => rfl
    | cons p ps ih =>
      simp only [findLoop, List.find?]
      cases h : patternsMatch (normalizeForMatching input) p.normalized with
      | true => simp
      | false => simpa using ih

/-! ### Lemmas about `findIndexP`, `updateAt` and the `useCount` sort -/

theorem findIndexP_get? {pred : α → Bool} {l : List α} {i : Nat}
    (h : findIndexP pred l = some i) :
    ∃ x, l.get? i = some x ∧ pred x = true := by
  induction l generalizing i with
  | nil => exact absurd h (by simp [findIndexP])
  | cons x xs ih =>
    unfold findIndexP at h
    by_cases hp : pred x = true
    · rw [if_pos hp] at h
      injection h with h'
      subst h'
      exact ⟨x, rfl, hp⟩
    · rw [if_neg hp] at h
      cases h2 : findIndexP pred xs with
      | none => rw [h2] at h; exact absurd h (by simp)
      | some i' =>
        rw [h2] at h
        simp only [Option.map_some'] at h
        injection h with h3
        subst h3
        obtain ⟨y, hy, hpy⟩ := ih h2
        exact ⟨y, by simpa using hy, hpy⟩

theorem updateAt_get?_eq (f : α → α) (l : List α) (i : Nat) :
    (updateAt i f l).get? i = (l.get? i).map f := by
  induction l generalizing i with
  | nil => simp [updateAt]
  | cons x xs ih =>
    cases i with
    | zero => simp [updateAt]
    | succ j => simpa [updateAt] using ih j

theorem updateAt_get?_ne (f : α → α) (l : List α) {i j : Nat} (h : j ≠ i) :
    (updateAt i f l).get? j = l.get? j := by
  induction l generalizing i j with
  | nil => simp [updateAt]
  | cons x xs ih =>
    cases i with
    | zero =>
      cases j with
      | zero => exact absurd rfl h
      | succ j' => simp [updateAt]
    | succ i' =>
      cases j with
      | zero => simp [updateAt]
      | succ j' => simpa [updateAt] using ih (fun hc => h (by rw [hc]))

theorem updateAt_length (f : α → α) (l : List α) (i : Nat) :
    (updateAt i f l).length = l.length := by
  induction l generalizing i with
  | nil => simp [updateAt]
  | cons x xs ih =>
    cases i with
    | zero => simp [updateAt]
    | succ j => simpa [updateAt] using ih j

/-- **C10** — merge frame condition: when an existing pattern at index `i` is
the first fuzzy match for the new normalized key, the pre-cap store update
changes exactly that entry, and only its `useCount` (incremented) and
`chunks` (overwritten by the latest remote chunk names); `id`, `normalized`,
`originalInput`, `taskNameTemplate`, `projectPattern`, `defaultProject`,
`successRate` and `createdAt` are untouched (expressed by the record-update
on the old entry), and every other index is unchanged, as is the length. -/
theorem learn_merge_frame (now : JsDate) (gen : Nat) (input : List Char)
    (res : RemoteParse) (store : List Pattern) (i : Nat)
    (h : findIndexP (fun p => patternsMatch p.normalized
      (normalizeForMatching input)) store = some i) :
    ∃ p, store.get? i = some p ∧
      (insertPattern (newPattern now gen input res) store).get? i =
        some { p with
                useCount := p.useCount + 1
                chunks := remoteChunkNames res } ∧
      (∀ j, j ≠ i →
        (insertPattern (newPattern now gen input res) store).get? j =
          store.get? j) ∧
      (insertPattern (newPattern now gen input res) store).length =
        store.length := by
  have h' : findIndexP (fun p => patternsMatch p.normalized
      (newPattern now gen input res).normalized) store = some i := h
  obtain ⟨p, hp, -⟩ := findIndexP_get? h'
  refine ⟨p, hp, ?_, ?_, ?_⟩
  · unfold insertPattern
    rw [h', updateAt_get?_eq, hp]
    rfl
  · intro j hj
    unfold insertPattern
    rw [h']
    exact updateAt_get?_ne _ _ hj
  · unfold insertPattern
    rw [h']
    exact updateAt_length _ _ _

/-- Witness for **C10**: a one-element store whose single pattern fuzzily
matches the new input; the merge bumps `useCount` from 3 to 4 and overwrites
the chunk list, leaving all other fields intact. -/
theorem learn_merge_frame_witness :
    (findIndexP (fun p : Pattern => patternsMatch p.normalized
        (normalizeForMatching "buy milk for groceries project".toList))
      ([{ id := 7, normalized := "buy milk groceries project".toList,
          originalInput := "buy milk groceries".toList,
          taskNameTemplate := ([], []), projectPattern := none,
          defaultProject := "Groceries".toList, chunks := ["Old".toList],
          createdAt := mkJsDate 2025 0 1, useCount := 3, successRate := 1 }]
        : List Pattern)
      = some 0) ∧
    (∃ p, ([{ id := 7, normalized := "buy milk groceries project".toList,
              originalInput := "buy milk groceries".toList,
              taskNameTemplate := ([], []), projectPattern := none,
              defaultProject := "Groceries".toList, chunks := ["Old".toList],
              createdAt := mkJsDate 2025 0 1, useCount := 3,
              successRate := 1 }]
           : List Pattern).get? 0 = some p ∧
      (insertPattern (newPattern (mkJsDate 2025 0 15) 9
          "buy milk for groceries project".toList
          { name := "Buy milk".toList, project := "Groceries".toList,
            chunks := some [⟨"Go to store".toList⟩] })
        [{ id := 7, normalized := "buy milk groceries project".toList,
           originalInput := "buy milk groceries".toList,
           taskNameTemplate := ([], []), projectPattern := none,
           defaultProject := "Groceries".toList, chunks := ["Old".toList],
           createdAt := mkJsDate 2025 0 1, useCount := 3,
           successRate := 1 }]).get? 0 =
        some { p with
                useCount := p.useCount + 1
                chunks := remoteChunkNames
                  { name := "Buy milk".toList, project := "Groceries".toList,
                    chunks := some [⟨"Go to store".toList⟩] } } ∧
      (∀ j, j ≠ 0 →
        (insertPattern (newPattern (mkJsDate 2025 0 15) 9
            "buy milk for groceries project".toList
            { name := "Buy milk".toList, project := "Groceries".toList,
              chunks := some [⟨"Go to store".toList⟩] })
          [{ id := 7, normalized := "buy milk groceries project".toList,
             originalInput := "buy milk groceries".toList,
             taskNameTemplate := ([], []), projectPattern := none,
             defaultProject := "Groceries".toList, chunks := ["Old".toList],
             createdAt := mkJsDate 2025 0 1, useCount := 3,
             successRate := 1 }]).get? j =
          ([{ id := 7, normalized := "buy milk groceries project".toList,
              originalInput := "buy milk groceries".toList,
              taskNameTemplate := ([], []), projectPattern := none,
              defaultProject := "Groceries".toList, chunks := ["Old".toList],
              createdAt := mkJsDate 2025 0 1, useCount := 3,
              successRate := 1 }] : List Pattern).get? j) ∧
      (insertPattern (newPattern (mkJsDate 2025 0 15) 9
          "buy milk for groceries project".toList
          { name := "Buy milk".toList, project := "Groceries".toList,
            chunks := some [⟨"Go to store".toList⟩] })
        [{ id := 7, normalized := "buy milk groceries project".toList,
           originalInput := "buy milk groceries".toList,
           taskNameTemplate := ([], []), projectPattern := none,
           defaultProject := "Groceries".toList, chunks := ["Old".toList],
           createdAt := mkJsDate 2025 0 1, useCount := 3,
           successRate := 1 }]).length = 1) :=
  ⟨by with_unfolding_all decide,
   learn_merge_frame (mkJsDate 2025 0 15) 9
     "buy milk for groceries project".toList
     { name := "Buy milk".toList, project := "Groceries".toList,
       chunks := some [⟨"Go to store".toList⟩] }
     [{ id := 7, normalized := "buy milk groceries project".toList,
        originalInput := "buy milk groceries".toList,
        taskNameTemplate := ([], []), projectPattern := none,
        defaultProject := "Groceries".toList, chunks := ["Old".toList],
        createdAt := mkJsDate 2025 0 1, useCount := 3, successRate := 1 }]
     0 (by with_unfolding_all decide)⟩

/-! ### Lemmas about the descending `useCount` sort and the 100-entry cap -/

theorem insDesc_length (a : Pattern) (l : List Pattern) :
    (insDesc a l).length = l.length + 1 := by
  induction l with
  | nil => rfl
  | cons b t ih =>
    unfold insDesc
    split
    · rfl
    · simp [List.length_cons, ih]

theorem mem_insDesc {x a : Pattern} {l : List Pattern} :
    x ∈ insDesc a l ↔ x = a ∨ x ∈ l := by
  induction l with
  | nil => simp [insDesc]
  | cons b t ih =>
    unfold insDesc
    split
    · simp only [List.mem_cons]
    · simp only [List.mem_cons, ih]
      tauto

/-- Descending order on `useCount`, pairwise. -/
def SortedByUseDesc (l : List Pattern) : Prop :=
  l.Pairwise (fun p q => q.useCount ≤ p.useCount)

theorem sortedByUseDesc_insDesc {a : Pattern} {l : List Pattern}
    (h : SortedByUseDesc l) : SortedByUseDesc (insDesc a l) := by
  induction l with
  | nil => simpa [insDesc, SortedByUseDesc] using List.pairwise_singleton _ _
  | cons b t ih =>
    rcases List.pairwise_cons.mp h with ⟨hb, ht⟩
    unfold insDesc
    split
    · rename_i hlt
      refine List.pairwise_cons.mpr ⟨?_, h⟩
      intro y hy
      rcases List.mem_cons.mp hy with h1 | h2
      · exact h1 ▸ Nat.le_of_lt hlt
      · exact Nat.le_trans (hb y h2) (Nat.le_of_lt hlt)
    · rename_i hge
      refine List.pairwise_cons.mpr ⟨?_, ih ht⟩
      intro y hy
      rcases mem_insDesc.mp hy with h1 | h2
      · exact h1 ▸ Nat.le_of_not_lt hge
      · exact hb y h2

theorem sortByUseCountDesc_sorted (l : List Pattern) :
    SortedByUseDesc (sortByUseCountDesc l) := by
  unfold sortByUseCountDesc
  suffices h : ∀ acc, SortedByUseDesc acc →
      SortedByUseDesc (l.foldl (fun acc x => insDesc x acc) acc) by
    exact h [] (List.Pairwise.nil)
  induction l with
  | nil => intro acc hacc; exact hacc
  | cons x xs ih =>
    intro acc hacc
    exact ih (insDesc x acc) (sortedByUseDesc_insDesc hacc)

theorem sortByUseCountDesc_length (l : List Pattern) :
    (sortByUseCountDesc l).length = l.length := by
  unfold sortByUseCountDesc
  suffices h : ∀ acc, (l.foldl (fun acc x => insDesc x acc) acc).length =
      acc.length + l.length by
    simpa using h []
  induction l with
  | nil => intro acc; simp
  | cons x xs ih =>
    intro acc
    rw [List.foldl_cons, ih (insDesc x acc), insDesc_length]
    simp [List.length_cons]
    omega

/-- Every `capPatterns` output fits in 100 entries when its input either
fits already or is about to be truncated; in fact the cap always holds when
the input has at most 101 entries, and the truncation branch always yields
exactly 100. -/
theorem capPatterns_length_le (l : List Pattern) (h : l.length ≤ 101) :
    (capPatterns l).length ≤ 100 := by
  unfold capPatterns
  split
  · rename_i hgt
    rw [List.length_take, sortByUseCountDesc_length]
    omega
  · rename_i hle
    omega

theorem insertPattern_length_le (pat : Pattern) (store : List Pattern) :
    (insertPattern pat store).length ≤ store.length + 1 := by
  unfold insertPattern
  cases h : findIndexP (fun p => patternsMatch p.normalized pat.normalized)
      store with
  | some i => rw [updateAt_length]; omega
  | none => simp

/-- One learning step keeps the store within the 100-pattern cap. -/
theorem learn_step_length_le (now : JsDate) (gen : Nat) (input : List Char)
    (res : RemoteParse) (store : List Pattern) (h : store.length ≤ 100) :
    (learnFromClaudeResponse now gen input res store).1.length ≤ 100 := by
  unfold learnFromClaudeResponse
  exact capPatterns_length_le _
    (Nat.le_trans (insertPattern_length_le _ _) (by omega))

/-- **C2** — Pattern Store capacity invariant: starting from a store of at
most 100 patterns, any sequence of `learnFromClaudeResponse` calls leaves at
most 100 patterns; and whenever a call triggers eviction (the post-merge
store exceeds 100), the new store is exactly the first 100 entries of the
store sorted by descending `useCount`, and every evicted pattern's
`useCount` is at most every surviving pattern's `useCount`. -/
theorem pattern_store_capacity (init : List Pattern) (h : init.length ≤ 100)
    (calls : List (JsDate × Nat × List Char × RemoteParse)) :
    ((calls.foldl (fun store c =>
        (learnFromClaudeResponse c.1 c.2.1 c.2.2.1 c.2.2.2 store).1)
      init).length ≤ 100) ∧
    (∀ (now : JsDate) (gen : Nat) (input : List Char) (res : RemoteParse)
       (store : List Pattern),
      100 < (insertPattern (newPattern now gen input res) store).length →
        (learnFromClaudeResponse now gen input res store).1 =
          (sortByUseCountDesc
            (insertPattern (newPattern now gen input res) store)).take 100 ∧
        ∀ p ∈ (sortByUseCountDesc
            (insertPattern (newPattern now gen input res) store)).drop 100,
          ∀ q ∈ (sortByUseCountDesc
              (insertPattern (newPattern now gen input res) store)).take 100,
            p.useCount ≤ q.useCount) := by
  constructor
  · induction calls generalizing init with
    | nil => exact h
    | cons c cs ih =>
      rw [List.foldl_cons]
      exact ih _ (learn_step_length_le c.1 c.2.1 c.2.2.1 c.2.2.2 init h)
  · intro now gen input res store hgt
    constructor
    · unfold learnFromClaudeResponse capPatterns
      rw [if_pos hgt]
    · intro p hp q hq
      have hs := sortByUseCountDesc_sorted
        (insertPattern (newPattern now gen input res) store)
      unfold SortedByUseDesc at hs
      rw [← List.take_append_drop 100 (sortByUseCountDesc
        (insertPattern (newPattern now gen input res) store))] at hs
      exact (List.pairwise_append.mp hs).2.2 q hq p hp

/-- Witness for **C2**: the empty store satisfies the precondition, and one
learning call leaves at most 100 patterns. -/
theorem pattern_store_capacity_witness :
    (([] : List Pattern).length ≤ 100) ∧
    (([((mkJsDate 2025 0 15), 0, "buy milk".toList,
        ({ name := "Buy milk".toList, project := "Inbox".toList,
           chunks := none } : RemoteParse))].foldl
      (fun store c =>
        (learnFromClaudeResponse c.1 c.2.1 c.2.2.1 c.2.2.2 store).1)
      ([] : List Pattern)).length ≤ 100) :=
  ⟨by decide,
   (pattern_store_capacity [] (by decide)
     [((mkJsDate 2025 0 15), 0, "buy milk".toList,
       ({ name := "Buy milk".toList, project := "Inbox".toList,
          chunks := none } : RemoteParse))]).1⟩

/-! ## C4 — Normalizer idempotence

The normalizer is *not* idempotent: weekday/relative-time/number replacement
introduces placeholder tokens whose brackets the second pass strips (e.g.
`normalize "monday" = "[DAY]"` but `normalize "[DAY]" = "day"`), and the
whitespace collapse can create a fresh `next week` occurrence.  Idempotence
does hold on every input whose normalized form is a canonical token string:
non-empty tokens of lower-case word characters joined by single spaces, no
token being a stopword, weekday name, `today`/`tomorrow`, or an all-digit
run, and no adjacent token pair `next week`. -/

/-- **C4 counterexample** — normalizing twice differs from normalizing once
on `"monday"`: the first pass yields the placeholder `[DAY]`, the second
strips its brackets. -/
theorem normalize_not_idempotent :
    normalizeForMatching (normalizeForMatching "monday".toList) ≠
      normalizeForMatching "monday".toList ∧
    normalizeForMatching "monday".toList = "[DAY]".toList ∧
    normalizeForMatching "[DAY]".toList = "day".toList := by
  with_unfolding_all decide

/-- A canonical character: lower-case letter, digit, or underscore (a word
character fixed by both lower-casing and punctuation stripping). -/
def canonChar (c : Char) : Bool :=
  (97 ≤ c.toNat && c.toNat ≤ 122) || (48 ≤ c.toNat && c.toNat ≤ 57) ||
  c.toNat == 95

/-- A canonical token: non-empty, canonical characters only, not a stopword,
weekday name, relative-time word, or all-digit run. -/
def goodToken (t : List Char) : Bool :=
  !t.isEmpty && t.all canonChar &&
  !stopWords.contains t && !dayWords.contains t &&
  t != "today".toList && t != "tomorrow".toList &&
  !t.all Char.isDigit

/-- No adjacent token pair `next`, `week` (which the whitespace collapse
would otherwise fuse into a fresh `[TIME]` match). -/
def noNextWeekPair : List (List Char) → Bool
  | [] => true
  | [_] => true
  | t1 :: t2 :: rest =>
    !(t1 == "next".toList && t2 == "week".toList) &&
    noNextWeekPair (t2 :: rest)

/-- Tokens joined by single spaces. -/
def joinSp : List (List Char) → List Char
  | [] => []
  | t :: ts => t ++ joinSpTail ts
where
  /-- The continuation after a token: a space before each further token. -/
  joinSpTail : List (List Char) → List Char
  | [] => []
  | t :: ts => ' ' :: (t ++ joinSpTail ts)

/-! ### Character-class facts -/

theorem canonChar_isWordChar {c : Char} (h : canonChar c = true) :
    isWordChar c = true := by
  simp only [canonChar, Bool.or_eq_true, Bool.and_eq_true, decide_eq_true_eq,
    beq_iff_eq] at h
  simp only [isWordChar, Bool.or_eq_true, Bool.and_eq_true, decide_eq_true_eq,
    beq_iff_eq]
  omega

theorem canonChar_not_space {c : Char} (h : canonChar c = true) :
    isSpaceChar c = false := by
  simp only [canonChar, Bool.or_eq_true, Bool.and_eq_true, decide_eq_true_eq,
    beq_iff_eq] at h
  rw [Bool.eq_false_iff]
  intro hsp
  simp only [isSpaceChar, Bool.or_eq_true, beq_iff_eq] at hsp
  omega

theorem isWordChar_not_space {c : Char} (h : isWordChar c = true) :
    isSpaceChar c = false := by
  simp only [isWordChar, Bool.or_eq_true, Bool.and_eq_true, decide_eq_true_eq,
    beq_iff_eq] at h
  rw [Bool.eq_false_iff]
  intro hsp
  simp only [isSpaceChar, Bool.or_eq_true, beq_iff_eq] at hsp
  omega

theorem canonChar_toLower {c : Char} (h : canonChar c = true) :
    Char.toLower c = c := by
  simp only [canonChar, Bool.or_eq_true, Bool.and_eq_true, decide_eq_true_eq,
    beq_iff_eq] at h
  unfold Char.toLower
  rw [if_neg]
  omega

theorem space_toLower : Char.toLower ' ' = ' ' := rfl

theorem space_not_word : isWordChar ' ' = false := rfl

theorem goodToken_word {t : List Char} (h : goodToken t = true) :
    ∀ c ∈ t, isWordChar c = true := by
  intro c hc
  simp only [goodToken, Bool.and_eq_true, List.all_eq_true] at h
  exact canonChar_isWordChar (h.1.1.1.1.1.2 c hc)

theorem goodToken_ne_nil {t : List Char} (h : goodToken t = true) : t ≠ [] := by
  simp only [goodToken, Bool.and_eq_true] at h
  have := h.1.1.1.1.1.1
  intro hx
  subst hx
  simp at this

/-! ### `litMatch` decomposition over word runs -/

theorem litMatch_append (p q s : List Char) :
    litMatch (p ++ q) s = (litMatch p s).bind (litMatch q) := by
  induction p generalizing s with
  | nil => simp [litMatch]
  | cons a ps ih =>
    cases s with
    | nil => simp [litMatch]
    | cons c cs =>
      simp only [List.cons_append, litMatch]
      split
      · exact ih cs
      · simp

/-- A word-character literal matching against a word run followed by a
non-word boundary must stay inside the run. -/
theorem litMatch_word_run {w t tail r : List Char}
    (hw : ∀ c ∈ w, isWordChar c = true) (ht : ∀ c ∈ t, isWordChar c = true)
    (htail : noWordAhead tail = true)
    (h : litMatch w (t ++ tail) = some r) :
    ∃ t2, t = w ++ t2 ∧ r = t2 ++ tail := by
  induction w generalizing t with
  | nil =>
    rw [show litMatch ([] : List Char) (t ++ tail) = some (t ++ tail) from rfl]
      at h
    injection h with h'
    exact ⟨t, by simp, by simp [← h']⟩
  | cons a ws ih =>
    cases t with
    | nil =>
      simp only [List.nil_append] at h
      cases tail with
      | nil =>
        rw [show litMatch (a :: ws) ([] : List Char) = none from rfl] at h
        exact absurd h (by simp)
      | cons d ds =>
        simp only [litMatch] at h
        split at h
        · rename_i hda
          subst hda
          have h1 := hw d (List.mem_cons_self d ws)
          simp only [noWordAhead, h1] at htail
          exact absurd htail (by simp)
        · exact absurd h (by simp)
    | cons c ts =>
      simp only [List.cons_append, litMatch] at h
      split at h
      · rename_i hca
        subst hca
        obtain ⟨t2, h1, h2⟩ := ih (fun x hx => hw x (List.mem_cons_of_mem _ hx))
          (fun x hx => ht x (List.mem_cons_of_mem _ hx)) h
        exact ⟨t2, by simp [h1], h2⟩
      · exact absurd h (by simp)

/-- Tokens are non-empty word runs after a space or at the end, so the
continuation after a token starts at a word boundary. -/
theorem noWordAhead_joinSpTail (ts : List (List Char)) :
    noWordAhead (joinSp.joinSpTail ts) = true := by
  cases ts with
  | nil => rfl
  | cons t ts' => rfl

/-- If no alternative admits a boundary-closed match at this position,
`tryWords` fails. -/
theorem tryWords_fail {ws : List (List Char)} {s : List Char}
    (h : ∀ w ∈ ws, ∀ r, litMatch w s = some r → noWordAhead r = false) :
    tryWords ws s = none := by
  induction ws with
  | nil => rfl
  | cons w rest ih =>
    have hrest := ih (fun w' hw' => h w' (List.mem_cons_of_mem _ hw'))
    cases w with
    | nil => simpa [tryWords] using hrest
    | cons p ps =>
      cases s with
      | nil => simpa [tryWords] using hrest
      | cons c cs =>
        simp only [tryWords]
        split
        · rename_i hcp
          cases hlm : litMatch ps cs with
          | some r =>
            have hb := h (p :: ps) (List.mem_cons_self _ _) r
              (by subst hcp; simpa [litMatch] using hlm)
            dsimp only
            rw [hb]
            simpa using hrest
          | none => exact hrest
        · exact hrest

/-! ### Scanner-identity conditions -/

/-- No position of the text (with the given boundary state) admits a
word-bounded keyword match. -/
def NoMatch (ws : List (List Char)) : Bool → List Char → Prop
  | _, [] => True
  | prevW, c :: cs =>
    (prevW = false → tryWords ws (c :: cs) = none) ∧
    NoMatch ws (isWordChar c) cs

theorem replWords_id {ws : List (List Char)} {rep : List Char} :
    ∀ {prevW : Bool} {s : List Char}, NoMatch ws prevW s →
      replWords ws rep prevW s = s := by
  intro prevW s
  induction s generalizing prevW with
  | nil => intro _; simp only [replWords]
  | cons c cs ih =>
    intro h
    cases prevW with
    | true =>
      unfold replWords
      rw [if_pos rfl]
      rw [ih h.2]
    | false =>
      unfold replWords
      rw [if_neg (by simp)]
      rw [h.1 rfl]
      rw [ih h.2]

/-- No position admits a `\d+\b` match (with boundary before). -/
def NoNum : Bool → List Char → Prop
  | _, [] => True
  | prevW, c :: cs =>
    (prevW = false → c.isDigit = true →
      noWordAhead (cs.dropWhile Char.isDigit) = false) ∧
    NoNum (isWordChar c) cs

theorem replNums_id {rep : List Char} :
    ∀ {prevW : Bool} {s : List Char}, NoNum prevW s →
      replNums rep prevW s = s := by
  intro prevW s
  induction s generalizing prevW with
  | nil => intro _; simp only [replNums]
  | cons c cs ih =>
    intro h
    unfold replNums
    by_cases hc : (!prevW && c.isDigit) = true
    · rw [if_pos hc]
      rcases Bool.and_eq_true_iff.mp hc with ⟨hp, hd⟩
      have hpf : prevW = false := by
        cases prevW
        · rfl
        · simp at hp
      dsimp only
      rw [h.1 hpf hd]
      rw [if_neg (by simp)]
      rw [ih h.2]
    · rw [if_neg hc]
      rw [ih h.2]

/-- Whitespace is a single `' '` never followed by more whitespace. -/
def SingleSpaced : List Char → Prop
  | [] => True
  | c :: cs =>
    (isSpaceChar c = true → c = ' ' ∧ HeadNotSpace cs) ∧ SingleSpaced cs
where
  /-- The head (if any) is not whitespace. -/
  HeadNotSpace : List Char → Prop
  | [] => True
  | d :: _ => isSpaceChar d = false

theorem dropWhile_space_of_headNotSpace {cs : List Char}
    (h : SingleSpaced.HeadNotSpace cs) : cs.dropWhile isSpaceChar = cs := by
  cases cs with
  | nil => rfl
  | cons d ds =>
    have hd : isSpaceChar d = false := h
    simp [List.dropWhile, hd]

theorem collapseWs_id : ∀ {s : List Char}, SingleSpaced s →
    collapseWs s = s := by
  intro s
  induction s with
  | nil => intro _; simp only [collapseWs]
  | cons c cs ih =>
    intro h
    unfold collapseWs
    by_cases hc : isSpaceChar c = true
    · rw [if_pos hc]
      obtain ⟨hsp, hhead⟩ := h.1 hc
      rw [dropWhile_space_of_headNotSpace hhead]
      rw [ih h.2, hsp]
    · rw [if_neg hc]
      rw [ih h.2]

theorem trimWs_id {s : List Char} (h1 : SingleSpaced.HeadNotSpace s)
    (h2 : SingleSpaced.HeadNotSpace s.reverse) : trimWs s = s := by
  unfold trimWs
  rw [dropWhile_space_of_headNotSpace h1]
  rw [dropWhile_space_of_headNotSpace h2]
  exact List.reverse_reverse s

theorem map_toLower_id {s : List Char}
    (h : ∀ c ∈ s, canonChar c = true ∨ c = ' ') :
    s.map Char.toLower = s := by
  induction s with
  | nil => rfl
  | cons c cs ih =>
    have hc := h c (List.mem_cons_self _ _)
    have hlow : Char.toLower c = c := by
      rcases hc with h1 | h1
      · exact canonChar_toLower h1
      · rw [h1]; rfl
    simp only [List.map_cons, hlow]
    rw [ih (fun x hx => h x (List.mem_cons_of_mem _ hx))]

theorem punctToSpace_id {s : List Char}
    (h : ∀ c ∈ s, canonChar c = true ∨ c = ' ') :
    punctToSpace s = s := by
  unfold punctToSpace
  induction s with
  | nil => rfl
  | cons c cs ih =>
    have hc : (isWordChar c || isSpaceChar c) = true := by
      rcases h c (List.mem_cons_self _ _) with h1 | h1
      · simp [canonChar_isWordChar h1]
      · subst h1; rfl
    simp only [List.map_cons, hc, if_pos]
    rw [ih (fun x hx => h x (List.mem_cons_of_mem _ hx))]

/-! ### Token-structure facts -/

theorem joinSpTail_cons (u : List Char) (ts : List (List Char)) :
    joinSp.joinSpTail (u :: ts) = ' ' :: joinSp (u :: ts) := rfl

theorem mem_joinSp {c : Char} : ∀ {toks : List (List Char)},
    c ∈ joinSp toks → (∃ t ∈ toks, c ∈ t) ∨ c = ' ' := by
  intro toks
  induction toks with
  | nil => intro hc; simp [joinSp] at hc
  | cons t ts ih =>
    intro hc
    rw [show joinSp (t :: ts) = t ++ joinSp.joinSpTail ts from rfl] at hc
    rcases List.mem_append.mp hc with h1 | h2
    · exact Or.inl ⟨t, List.mem_cons_self _ _, h1⟩
    · cases ts with
      | nil => simp [joinSp.joinSpTail] at h2
      | cons u ts' =>
        rw [joinSpTail_cons] at h2
        rcases List.mem_cons.mp h2 with h3 | h4
        · exact Or.inr h3
        · rcases ih h4 with ⟨t', ht', hct'⟩ | hsp
          · exact Or.inl ⟨t', List.mem_cons_of_mem _ ht', hct'⟩
          · exact Or.inr hsp

theorem goodToken_canon {t : List Char} (h : goodToken t = true) :
    ∀ c ∈ t, canonChar c = true := by
  simp only [goodToken, Bool.and_eq_true, List.all_eq_true] at h
  exact h.1.1.1.1.1.2

theorem goodToken_not_stop {t : List Char} (h : goodToken t = true) :
    ∀ w ∈ stopWords, t ≠ w := by
  intro w hw he
  subst he
  simp only [goodToken, Bool.and_eq_true, Bool.not_eq_true'] at h
  have hc := h.1.1.1.1.2
  rw [show stopWords.contains t = List.elem t stopWords from rfl] at hc
  have hmem := List.elem_eq_true_of_mem hw
  rw [hc] at hmem
  exact absurd hmem (by simp)

theorem goodToken_not_day {t : List Char} (h : goodToken t = true) :
    ∀ w ∈ dayWords, t ≠ w := by
  intro w hw he
  subst he
  simp only [goodToken, Bool.and_eq_true, Bool.not_eq_true'] at h
  have hc := h.1.1.1.2
  rw [show dayWords.contains t = List.elem t dayWords from rfl] at hc
  have hmem := List.elem_eq_true_of_mem hw
  rw [hc] at hmem
  exact absurd hmem (by simp)

theorem goodToken_ne_today {t : List Char} (h : goodToken t = true) :
    t ≠ "today".toList := by
  simp only [goodToken, Bool.and_eq_true, bne_iff_ne, ne_eq] at h
  exact h.1.1.2

theorem goodToken_ne_tomorrow {t : List Char} (h : goodToken t = true) :
    t ≠ "tomorrow".toList := by
  simp only [goodToken, Bool.and_eq_true, bne_iff_ne, ne_eq] at h
  exact h.1.2

theorem goodToken_not_digits {t : List Char} (h : goodToken t = true) :
    ¬(t.all Char.isDigit = true) := by
  simp only [goodToken, Bool.and_eq_true, Bool.not_eq_true'] at h
  rw [h.2]
  simp

/-! ### Deriving the no-match conditions from canonical token structure -/

theorem noNextWeekPair_tail {t : List Char} {ts : List (List Char)}
    (h : noNextWeekPair (t :: ts) = true) : noNextWeekPair ts = true := by
  cases ts with
  | nil => rfl
  | cons u rest =>
    simp only [noNextWeekPair, Bool.and_eq_true] at h
    exact h.2

theorem noMatch_run {ws : List (List Char)} {t X : List Char}
    (ht : ∀ c ∈ t, isWordChar c = true) (hX : NoMatch ws true X) :
    NoMatch ws true (t ++ X) := by
  induction t with
  | nil => exact hX
  | cons c t' ih =>
    refine ⟨fun h => by simp at h, ?_⟩
    rw [ht c (List.mem_cons_self _ _)]
    exact ih (fun x hx => ht x (List.mem_cons_of_mem _ hx))

theorem noMatch_start {ws : List (List Char)} {t X : List Char}
    (htne : t ≠ []) (ht : ∀ c ∈ t, isWordChar c = true)
    (hfail : tryWords ws (t ++ X) = none) (hX : NoMatch ws true X) :
    NoMatch ws false (t ++ X) := by
  cases t with
  | nil => exact absurd rfl htne
  | cons c t' =>
    refine ⟨fun _ => hfail, ?_⟩
    rw [ht c (List.mem_cons_self _ _)]
    exact noMatch_run (fun x hx => ht x (List.mem_cons_of_mem _ hx)) hX

theorem noMatch_joinSp (ws : List (List Char))
    (hfail : ∀ t ts, goodToken t = true → (∀ u ∈ ts, goodToken u = true) →
      noNextWeekPair (t :: ts) = true →
      tryWords ws (t ++ joinSp.joinSpTail ts) = none) :
    ∀ toks, (∀ t ∈ toks, goodToken t = true) → noNextWeekPair toks = true →
      NoMatch ws false (joinSp toks) ∧
      NoMatch ws true (joinSp.joinSpTail toks) := by
  intro toks
  induction toks with
  | nil => exact fun _ _ => ⟨trivial, trivial⟩
  | cons t ts ih =>
    intro hgood hpair
    have hts : ∀ u ∈ ts, goodToken u = true :=
      fun u hu => hgood u (List.mem_cons_of_mem _ hu)
    have htg : goodToken t = true := hgood t (List.mem_cons_self _ _)
    have iht := ih hts (noNextWeekPair_tail hpair)
    have hstart : NoMatch ws false (t ++ joinSp.joinSpTail ts) :=
      noMatch_start (goodToken_ne_nil htg) (goodToken_word htg)
        (hfail t ts htg hts hpair) iht.2
    refine ⟨hstart, ?_, ?_⟩
    · intro h; simp at h
    · exact hstart

theorem tryWords_single_fail {ws : List (List Char)}
    (hws : ∀ w ∈ ws, ∀ c ∈ w, isWordChar c = true)
    {t : List Char} {ts : List (List Char)}
    (ht : ∀ c ∈ t, isWordChar c = true)
    (hnot : ∀ w ∈ ws, t ≠ w) :
    tryWords ws (t ++ joinSp.joinSpTail ts) = none := by
  apply tryWords_fail
  intro w hw r hlm
  obtain ⟨t2, h1, h2⟩ :=
    litMatch_word_run (hws w hw) ht (noWordAhead_joinSpTail ts) hlm
  cases t2 with
  | nil => exact absurd (by simpa using h1) (hnot w hw)
  | cons d t2' =>
    subst h2
    have hd : isWordChar d = true :=
      ht d (by rw [h1]; exact List.mem_append_right _ (List.mem_cons_self _ _))
    simp [noWordAhead, hd]

theorem litMatch_nextweek {t r : List Char} {ts : List (List Char)}
    (ht : ∀ c ∈ t, isWordChar c = true)
    (hts : ∀ u ∈ ts, goodToken u = true)
    (h : litMatch "next week".toList (t ++ joinSp.joinSpTail ts) = some r)
    (hb : noWordAhead r = true) :
    t = "next".toList ∧ ∃ ts', ts = "week".toList :: ts' := by
  have hsplit : "next week".toList = "next".toList ++ ' ' :: "week".toList :=
    rfl
  rw [hsplit, litMatch_append] at h
  cases h1 : litMatch "next".toList (t ++ joinSp.joinSpTail ts) with
  | none => rw [h1] at h; exact absurd h (by simp)
  | some r1 =>
    rw [h1] at h
    rw [show (some r1).bind (litMatch (' ' :: "week".toList)) =
      litMatch (' ' :: "week".toList) r1 from rfl] at h
    obtain ⟨t2, ht2, hr1⟩ := litMatch_word_run (by decide) ht
      (noWordAhead_joinSpTail ts) h1
    subst hr1
    cases t2 with
    | cons d t2' =>
      have hd : isWordChar d = true :=
        ht d (by rw [ht2]; exact List.mem_append_right _ (List.mem_cons_self _ _))
      simp only [List.cons_append, litMatch] at h
      rw [if_neg] at h
      · exact absurd h (by simp)
      · intro hds
        rw [hds] at hd
        exact absurd hd (by decide)
    | nil =>
      simp only [List.nil_append] at h ht2
      cases ts with
      | nil =>
        rw [show joinSp.joinSpTail ([] : List (List Char)) = [] from rfl] at h
        rw [show litMatch (' ' :: "week".toList) ([] : List Char) = none
          from rfl] at h
        exact absurd h (by simp)
      | cons u ts' =>
        rw [joinSpTail_cons] at h
        rw [show joinSp (u :: ts') = u ++ joinSp.joinSpTail ts' from rfl] at h
        simp only [litMatch, if_pos rfl] at h
        obtain ⟨u2, hu2, hr⟩ := litMatch_word_run (by decide)
          (goodToken_word (hts u (List.mem_cons_self _ _)))
          (noWordAhead_joinSpTail ts') h
        subst hr
        cases u2 with
        | cons e u2' =>
          have he : isWordChar e = true :=
            goodToken_word (hts u (List.mem_cons_self _ _)) e
              (by rw [hu2]; exact List.mem_append_right _ (List.mem_cons_self _ _))
          rw [show noWordAhead ((e :: u2') ++ joinSp.joinSpTail ts') =
            !isWordChar e from rfl, he] at hb
          exact absurd hb (by simp)
        | nil =>
          simp only [List.append_nil] at hu2
          exact ⟨by simpa using ht2, ts', by rw [hu2]⟩

theorem tryWords_time_fail {t : List Char} {ts : List (List Char)}
    (htg : goodToken t = true) (hts : ∀ u ∈ ts, goodToken u = true)
    (hpair : noNextWeekPair (t :: ts) = true) :
    tryWords timeWords (t ++ joinSp.joinSpTail ts) = none := by
  apply tryWords_fail
  intro w hw r hlm
  have ht := goodToken_word htg
  have hw3 : w = "today".toList ∨ w = "tomorrow".toList ∨
      w = "next week".toList := by
    simpa [timeWords] using hw
  rcases hw3 with hw1 | hw1 | hw1
  · subst hw1
    obtain ⟨t2, h1, h2⟩ :=
      litMatch_word_run (by decide) ht (noWordAhead_joinSpTail ts) hlm
    cases t2 with
    | nil => exact absurd (by simpa using h1) (goodToken_ne_today htg)
    | cons d t2' =>
      subst h2
      have hd : isWordChar d = true :=
        ht d (by rw [h1]; exact List.mem_append_right _ (List.mem_cons_self _ _))
      simp [noWordAhead, hd]
  · subst hw1
    obtain ⟨t2, h1, h2⟩ :=
      litMatch_word_run (by decide) ht (noWordAhead_joinSpTail ts) hlm
    cases t2 with
    | nil => exact absurd (by simpa using h1) (goodToken_ne_tomorrow htg)
    | cons d t2' =>
      subst h2
      have hd : isWordChar d = true :=
        ht d (by rw [h1]; exact List.mem_append_right _ (List.mem_cons_self _ _))
      simp [noWordAhead, hd]
  · subst hw1
    by_cases hbr : noWordAhead r = true
    · obtain ⟨h1, ts', h2⟩ := litMatch_nextweek ht hts hlm hbr
      subst h1 h2
      simp only [noNextWeekPair, Bool.and_eq_true] at hpair
      have := hpair.1
      simp at this
    · simpa using hbr

/-! ### Digit-run conditions -/

theorem dropWhile_digit_word {t' : List Char} (X : List Char)
    (ht : ∀ c ∈ t', isWordChar c = true)
    (hnd : ¬(t'.all Char.isDigit = true)) :
    noWordAhead ((t' ++ X).dropWhile Char.isDigit) = false := by
  induction t' with
  | nil => simp at hnd
  | cons d ds ih =>
    by_cases hd : Char.isDigit d = true
    · rw [show ((d :: ds) ++ X).dropWhile Char.isDigit =
        (ds ++ X).dropWhile Char.isDigit by
          simp [List.dropWhile_cons, hd]]
      apply ih (fun c hc => ht c (List.mem_cons_of_mem _ hc))
      simp only [List.all_cons, hd, Bool.true_and] at hnd
      exact hnd
    · rw [show ((d :: ds) ++ X).dropWhile Char.isDigit =
        d :: (ds ++ X) by
          simp [List.dropWhile_cons, hd]]
      have hw : isWordChar d = true := ht d (List.mem_cons_self _ _)
      simp [noWordAhead, hw]

theorem noNum_run {t X : List Char}
    (ht : ∀ c ∈ t, isWordChar c = true) (hX : NoNum true X) :
    NoNum true (t ++ X) := by
  induction t with
  | nil => exact hX
  | cons c t' ih =>
    refine ⟨fun h => by simp at h, ?_⟩
    rw [ht c (List.mem_cons_self _ _)]
    exact ih (fun x hx => ht x (List.mem_cons_of_mem _ hx))

theorem noNum_start {t X : List Char} (htg : goodToken t = true)
    (hX : NoNum true X) : NoNum false (t ++ X) := by
  have ht := goodToken_word htg
  cases hcase : t with
  | nil => exact absurd hcase (goodToken_ne_nil htg)
  | cons c t' =>
    subst hcase
    refine ⟨fun _ hdig => ?_, ?_⟩
    · apply dropWhile_digit_word X
        (fun x hx => ht x (List.mem_cons_of_mem _ hx))
      intro hall
      apply goodToken_not_digits htg
      simp [List.all_cons, hdig, hall]
    · rw [ht c (List.mem_cons_self _ _)]
      exact noNum_run (fun x hx => ht x (List.mem_cons_of_mem _ hx)) hX

theorem noNum_joinSp : ∀ toks, (∀ t ∈ toks, goodToken t = true) →
    NoNum false (joinSp toks) ∧ NoNum true (joinSp.joinSpTail toks) := by
  intro toks
  induction toks with
  | nil => exact fun _ => ⟨trivial, trivial⟩
  | cons t ts ih =>
    intro hgood
    have hts : ∀ u ∈ ts, goodToken u = true :=
      fun u hu => hgood u (List.mem_cons_of_mem _ hu)
    have iht := ih hts
    have hstart : NoNum false (t ++ joinSp.joinSpTail ts) :=
      noNum_start (hgood t (List.mem_cons_self _ _)) iht.2
    refine ⟨hstart, ?_, ?_⟩
    · intro h _; simp at h
    · exact hstart

/-! ### Whitespace conditions and the fixpoint -/

theorem singleSpaced_run {t X : List Char}
    (ht : ∀ c ∈ t, isWordChar c = true) (hX : SingleSpaced X) :
    SingleSpaced (t ++ X) := by
  induction t with
  | nil => exact hX
  | cons c t' ih =>
    refine ⟨fun hsp => ?_, ih (fun x hx => ht x (List.mem_cons_of_mem _ hx))⟩
    rw [isWordChar_not_space (ht c (List.mem_cons_self _ _))] at hsp
    exact absurd hsp (by simp)

theorem headNotSpace_token {t X : List Char} (htne : t ≠ [])
    (ht : ∀ c ∈ t, isWordChar c = true) :
    SingleSpaced.HeadNotSpace (t ++ X) := by
  cases t with
  | nil => exact absurd rfl htne
  | cons c t' =>
    show isSpaceChar c = false
    exact isWordChar_not_space (ht c (List.mem_cons_self _ _))

theorem singleSpaced_joinSp : ∀ toks, (∀ t ∈ toks, goodToken t = true) →
    SingleSpaced (joinSp toks) ∧ SingleSpaced (joinSp.joinSpTail toks) := by
  intro toks
  induction toks with
  | nil => exact fun _ => ⟨trivial, trivial⟩
  | cons t ts ih =>
    intro hgood
    have htg : goodToken t = true := hgood t (List.mem_cons_self _ _)
    have hts : ∀ u ∈ ts, goodToken u = true :=
      fun u hu => hgood u (List.mem_cons_of_mem _ hu)
    have iht := ih hts
    have hmain : SingleSpaced (t ++ joinSp.joinSpTail ts) :=
      singleSpaced_run (goodToken_word htg) iht.2
    exact ⟨hmain,
      fun _ => ⟨rfl, headNotSpace_token (goodToken_ne_nil htg)
        (goodToken_word htg)⟩,
      hmain⟩

theorem headNotSpace_reverse_token {t : List Char} (htne : t ≠ [])
    (ht : ∀ c ∈ t, isWordChar c = true) :
    SingleSpaced.HeadNotSpace t.reverse := by
  cases hr : t.reverse with
  | nil => exact trivial
  | cons d ds =>
    show isSpaceChar d = false
    have hd : d ∈ t := by
      rw [← List.mem_reverse, hr]
      exact List.mem_cons_self _ _
    exact isWordChar_not_space (ht d hd)

theorem joinSp_ne_nil {t : List Char} {ts : List (List Char)}
    (htne : t ≠ []) : joinSp (t :: ts) ≠ [] := by
  rw [show joinSp (t :: ts) = t ++ joinSp.joinSpTail ts from rfl]
  simp [htne]

theorem lastNotSpace_joinSp : ∀ toks, (∀ t ∈ toks, goodToken t = true) →
    SingleSpaced.HeadNotSpace (joinSp toks).reverse := by
  intro toks
  induction toks with
  | nil => exact fun _ => trivial
  | cons t ts ih =>
    intro hgood
    have htg : goodToken t = true := hgood t (List.mem_cons_self _ _)
    have hts : ∀ u ∈ ts, goodToken u = true :=
      fun u hu => hgood u (List.mem_cons_of_mem _ hu)
    cases ts with
    | nil =>
      rw [show joinSp [t] = t ++ [] from rfl, List.append_nil]
      exact headNotSpace_reverse_token (goodToken_ne_nil htg)
        (goodToken_word htg)
    | cons u ts' =>
      rw [show joinSp (t :: u :: ts') =
        (t ++ [' ']) ++ joinSp (u :: ts') from by simp [joinSp, joinSpTail_cons]]
      rw [List.reverse_append]
      have hne : joinSp (u :: ts') ≠ [] :=
        joinSp_ne_nil (goodToken_ne_nil (hts u (List.mem_cons_self _ _)))
      have ihu := ih hts
      cases hr : (joinSp (u :: ts')).reverse with
      | nil => exact absurd (by simpa using hr) hne
      | cons d ds =>
        rw [hr] at ihu
        exact ihu

theorem headNotSpace_joinSp : ∀ toks, (∀ t ∈ toks, goodToken t = true) →
    SingleSpaced.HeadNotSpace (joinSp toks) := by
  intro toks hgood
  cases toks with
  | nil => exact trivial
  | cons t ts =>
    exact headNotSpace_token
      (goodToken_ne_nil (hgood t (List.mem_cons_self _ _)))
      (goodToken_word (hgood t (List.mem_cons_self _ _)))

theorem joinSp_chars : ∀ toks, (∀ t ∈ toks, goodToken t = true) →
    ∀ c ∈ joinSp toks, canonChar c = true ∨ c = ' ' := by
  intro toks hgood c hc
  rcases mem_joinSp hc with ⟨t, ht, hct⟩ | hsp
  · exact Or.inl (goodToken_canon (hgood t ht) c hct)
  · exact Or.inr hsp

/-- Every canonical token string is a fixpoint of the normalizer. -/
theorem normalize_joinSp_fixpoint (toks : List (List Char))
    (hgood : ∀ t ∈ toks, goodToken t = true)
    (hpair : noNextWeekPair toks = true) :
    normalizeForMatching (joinSp toks) = joinSp toks := by
  have hchars := joinSp_chars toks hgood
  have hstop := (noMatch_joinSp stopWords
    (fun t ts htg hts _ => tryWords_single_fail (by decide)
      (goodToken_word htg) (goodToken_not_stop htg)) toks hgood hpair).1
  have hday := (noMatch_joinSp dayWords
    (fun t ts htg hts _ => tryWords_single_fail (by decide)
      (goodToken_word htg) (goodToken_not_day htg)) toks hgood hpair).1
  have htime := (noMatch_joinSp timeWords
    (fun t ts htg hts hp => tryWords_time_fail htg hts hp)
    toks hgood hpair).1
  have hnum := (noNum_joinSp toks hgood).1
  have hsp := (singleSpaced_joinSp toks hgood).1
  unfold normalizeForMatching
  rw [map_toLower_id hchars, punctToSpace_id hchars,
    replWords_id hstop, replWords_id hday, replWords_id htime,
    replNums_id hnum, collapseWs_id hsp,
    trimWs_id (headNotSpace_joinSp toks hgood) (lastNotSpace_joinSp toks hgood)]

/-- **C4 amended** — the normalizer is *not* idempotent in general (the
placeholder tokens are not fixpoints); it is idempotent on the inputs whose
normalized form is a canonical token string: non-empty lower-case word-run
tokens joined by single spaces, none of which is a stopword, weekday name,
`today`/`tomorrow`, or an all-digit run (i.e. no placeholder token was
produced), and with no adjacent `next week` token pair. -/
theorem normalize_idempotent_on_canonical (x : List Char)
    (toks : List (List Char))
    (hrep : normalizeForMatching x = joinSp toks)
    (hgood : ∀ t ∈ toks, goodToken t = true)
    (hpair : noNextWeekPair toks = true) :
    normalizeForMatching (normalizeForMatching x) = normalizeForMatching x := by
  rw [hrep]
  exact normalize_joinSp_fixpoint toks hgood hpair

/-- Witness for **C4 amended**: `"Buy milk for groceries!"` normalizes to the
canonical `"buy milk groceries"`, and normalizing again is the identity. -/
theorem normalize_idempotent_on_canonical_witness :
    (normalizeForMatching "Buy milk for groceries!".toList =
      joinSp ["buy".toList, "milk".toList, "groceries".toList]) ∧
    (∀ t ∈ [("buy".toList : List Char), "milk".toList, "groceries".toList],
      goodToken t = true) ∧
    (noNextWeekPair ["buy".toList, "milk".toList, "groceries".toList]
      = true) ∧
    (normalizeForMatching
        (normalizeForMatching "Buy milk for groceries!".toList) =
      normalizeForMatching "Buy milk for groceries!".toList) :=
  ⟨by with_unfolding_all decide, by decide, by decide,
   normalize_idempotent_on_canonical "Buy milk for groceries!".toList
     ["buy".toList, "milk".toList, "groceries".toList]
     (by with_unfolding_all decide) (by decide) (by decide)⟩
